import Mathlib

/-!
Verification of the confy layered-configuration resolver.

This file gives a shallow embedding of the core of `confy/loader.py`,
`confy/provenance.py` and `confy/exceptions.py`, and proves or refutes the
frozen claims about it.  Python values are modelled by the mutual inductive
family `Value` / `Entries` / `VList`; Python dicts are association lists in
insertion order (keys of a real dict are unique, which appears as explicit
no-duplicate hypotheses where proofs need it).  `Config` objects (a dict
subclass) are dict nodes whose `cfg` flag is true.  String manipulation is
modelled over `List Char` (code points), matching CPython semantics for
the ASCII inputs the loader handles.
-/

namespace Confy

mutual

/-- A Python value as handled by the loader: strings, ints, floats (kept
as their source text, since no claim compares float values), bools, None,
lists, and dicts.  A dict carries a `cfg` flag: `true` when the object is
an instance of the `Config` subclass of `dict`, `false` for a plain dict. -/
inductive Value where
  | vstr (s : String)
  | vint (n : Int)
  | vfloat (s : String)
  | vbool (b : Bool)
  | vnull
  | vlist (xs : VList)
  | vdict (cfg : Bool) (entries : Entries)

/-- Dict entries in insertion order. -/
inductive Entries where
  | nil
  | cons (k : String) (v : Value) (rest : Entries)

/-- A Python list of values. -/
inductive VList where
  | nil
  | cons (v : Value) (rest : VList)

end

/-- Spine induction for `Entries` (each entry's value is opaque). -/
theorem Entries.spine {P : Entries → Prop} (h1 : P .nil)
    (h2 : ∀ k v rest, P rest → P (.cons k v rest)) : ∀ es, P es
  | .nil => h1
  | .cons k v rest => h2 k v rest (Entries.spine h1 h2 rest)

/-- Conversion from a Lean list literal, for readable concrete dicts. -/
def E : List (String × Value) → Entries
  | [] => .nil
  | (k, v) :: rest => .cons k v (E rest)

/-- Conversion from a Lean list literal, for readable concrete lists. -/
def V : List Value → VList
  | [] => .nil
  | v :: rest => .cons v (V rest)

/-- Dict lookup `d.get(k)`: first (unique, in a real dict) matching key. -/
def alGet : Entries → String → Option Value
  | .nil, _ => none
  | .cons k2 v rest, k => if k2 = k then some v else alGet rest k

/-- Dict assignment `d[k] = v`: updates in place keeping the key position,
or appends a new key at the end — CPython insertion-order semantics. -/
def alSet : Entries → String → Value → Entries
  | .nil, k, v => .cons k v .nil
  | .cons k2 v2 rest, k, v =>
    if k2 = k then .cons k2 v rest else .cons k2 v2 (alSet rest k v)

/-- Dict deletion `del d[k]`. -/
def alDel : Entries → String → Entries
  | .nil, _ => .nil
  | .cons k2 v2 rest, k => if k2 = k then alDel rest k else .cons k2 v2 (alDel rest k)

/-- Keys of a dict, in order. -/
def alKeys : Entries → List String
  | .nil => []
  | .cons k _ rest => k :: alKeys rest

def Entries.isNil : Entries → Bool
  | .nil => true
  | .cons _ _ _ => false

def isDictV : Value → Bool
  | .vdict _ _ => true
  | _ => false

-- ## Character-level string helpers (CPython semantics on code points)

def lowerC (c : Char) : Char := c.toLower

def upperC (c : Char) : Char := c.toUpper

def lowerS (s : String) : String := ⟨s.data.map lowerC⟩

def upperS (s : String) : String := ⟨s.data.map upperC⟩

def isSpaceC (c : Char) : Bool :=
  c = ' ' || c = '\t' || c = '\n' || c = '\r' || c = '\x0b' || c = '\x0c'

/-- Python `str.strip()` (whitespace at both ends; ASCII whitespace). -/
def trimS (s : String) : String :=
  ⟨((s.data.dropWhile isSpaceC).reverse.dropWhile isSpaceC).reverse⟩

/-- Python `str.rstrip("_")`. -/
def rstripUnderscore (s : String) : String :=
  ⟨(s.data.reverse.dropWhile (fun c => c = '_')).reverse⟩

/-- Python `a.startswith(b)` as a check on code-point lists. -/
def isPre : List Char → List Char → Bool
  | [], _ => true
  | _ :: _, [] => false
  | a :: as1, b :: bs => a = b && isPre as1 bs

def startsWithS (pre s : String) : Bool := isPre pre.data s.data

/-- Python `s.replace(a, b)` for single characters `a`, `b`. -/
def replaceC (a b : Char) (s : String) : String :=
  ⟨s.data.map (fun c => if c = a then b else c)⟩

/-- Python `s.split(sep)` for a single-character separator (no maxsplit). -/
def splitCAux (sep : Char) : List Char → List Char → List (List Char)
  | [], acc => [acc.reverse]
  | c :: rest, acc =>
    if c = sep then acc.reverse :: splitCAux sep rest [] else splitCAux sep rest (c :: acc)

def splitC (sep : Char) (s : String) : List String :=
  (splitCAux sep s.data []).map (fun cs => (⟨cs⟩ : String))

def splitOnDot (s : String) : List String := splitC '.' s

/-- Python `s.split(sep, 1)` for a single-character separator: the part
before the first occurrence and everything after it (`none` if absent). -/
def splitFirstAux (sep : Char) : List Char → List Char → Option (String × String)
  | [], _ => none
  | c :: rest, acc =>
    if c = sep then some (⟨acc.reverse⟩, ⟨rest⟩) else splitFirstAux sep rest (c :: acc)

def splitFirstC (sep : Char) (s : String) : Option (String × String) :=
  splitFirstAux sep s.data []

/-- Python `sep.join(parts)` for a single-character separator. -/
def joinC (sep : Char) : List String → String
  | [] => ""
  | [s] => s
  | s :: rest => s ++ ⟨[sep]⟩ ++ joinC sep rest

def countC (c : Char) (s : String) : Nat := (s.data.filter (fun d => d = c)).length

/-- The env-var key conversion of `_collect_env_vars`: on the lowercased
key the chain `replace("__", sentinel).replace("_", ".").replace(sentinel, "_")`
turns a double underscore into a literal underscore and a single underscore
into a dot (the sentinel never occurs in an environment variable name). -/
def envUnderscores : List Char → List Char
  | [] => []
  | '_' :: '_' :: rest => '_' :: envUnderscores rest
  | '_' :: rest => '.' :: envUnderscores rest
  | c :: rest => c :: envUnderscores rest

def envDotKey (keyPart : List Char) : String :=
  ⟨envUnderscores (keyPart.map lowerC)⟩

/-- Lexicographic order on code points — Python string `<=`. -/
def lexLe : List Char → List Char → Bool
  | [], _ => true
  | _ :: _, [] => false
  | a :: as1, b :: bs => if a = b then lexLe as1 bs else decide (a < b)

def strLe (a b : String) : Bool := lexLe a.data b.data

/-- Stable insertion of a later element after all existing elements that do
not compare strictly below it; folding this over a list reproduces Python's
stable `sorted` for the non-strict order `le`. -/
def stableInsert (le : α → α → Bool) (x : α) : List α → List α
  | [] => [x]
  | y :: ys => if le y x then y :: stableInsert le x ys else x :: y :: ys

def stableSort (le : α → α → Bool) (l : List α) : List α :=
  l.foldl (fun acc x => stableInsert le x acc) []

-- ## The value parser `_parse_value`

/-- Python `int(s)` on an already-stripped string: optional sign, then
decimal digits with single underscores allowed only between digits. -/
def pyDigitsGo (acc : Nat) : List Char → Option Nat
  | [] => some acc
  | c :: rest =>
    if c = '_' then
      match rest with
      | [] => none
      | d :: rest2 =>
        if d.isDigit then pyDigitsGo (acc * 10 + (d.toNat - '0'.toNat)) rest2 else none
    else if c.isDigit then pyDigitsGo (acc * 10 + (c.toNat - '0'.toNat)) rest else none

def pyDigits : List Char → Option Nat
  | [] => none
  | c :: rest => if c.isDigit then pyDigitsGo (c.toNat - '0'.toNat) rest else none

def pyInt (cs : List Char) : Option Int :=
  match cs with
  | [] => none
  | c :: rest =>
    if c = '+' then (pyDigits rest).map (fun n => (n : Int))
    else if c = '-' then (pyDigits rest).map (fun n => -(n : Int))
    else (pyDigits (c :: rest)).map (fun n => (n : Int))

/-- Whether a digit group is well formed (underscores only between digits). -/
def digitsOk (cs : List Char) : Bool := (pyDigits cs).isSome

/-- Python `float(s)` syntax after the optional sign: `inf`, `infinity`,
`nan` (case-insensitive), or a mantissa (digit groups around an optional
dot, at least one digit) with an optional exponent. -/
def pyFloatTail (cs : List Char) : Bool :=
  let lw := cs.map lowerC
  if lw = "inf".data || lw = "infinity".data || lw = "nan".data then true
  else
    let mantExp : List Char × Option (List Char) :=
      match splitFirstAux 'e' lw [] with
      | some (m, e) => (m.data, some e.data)
      | none => (lw, none)
    let mOk :=
      match splitFirstAux '.' mantExp.1 [] with
      | none => digitsOk mantExp.1
      | some (bef, aft) =>
        !(aft.data.contains '.') &&
        (bef.data.isEmpty || digitsOk bef.data) &&
        (aft.data.isEmpty || digitsOk aft.data) &&
        !(bef.data.isEmpty && aft.data.isEmpty)
    let eOk :=
      match mantExp.2 with
      | none => true
      | some ('+' :: rest) => digitsOk rest
      | some ('-' :: rest) => digitsOk rest
      | some rest => digitsOk rest
    mOk && eOk

def pyFloatShape (cs : List Char) : Bool :=
  match cs with
  | [] => pyFloatTail []
  | c :: rest =>
    if c = '+' then pyFloatTail rest
    else if c = '-' then pyFloatTail rest
    else pyFloatTail (c :: rest)

/-- The JSON-attempt guard of `_parse_value`: the stripped string has length
greater than one, starts with a brace, bracket or double quote, and ends
with the matching closing delimiter. -/
def jsonGate (cs : List Char) : Bool :=
  match cs with
  | [] => false
  | c :: rest =>
    decide (rest.length > 0) &&
    ((c = '{' && cs.getLast? = some '}') ||
     (c = '[' && cs.getLast? = some ']') ||
     (c = '\"' && cs.getLast? = some '\"'))

/-- The value parser `_parse_value`.  `jdec` is the external `json.loads`
collaborator (the core delegates structured decoding to it); it returns
`none` on a decode error.  Non-string input passes through unchanged. -/
def parse_value (jdec : String → Option Value) : Value → Value
  | .vstr raw =>
    let st := trimS raw
    let lw := lowerS st
    if lw = "true" then .vbool true
    else if lw = "false" then .vbool false
    else if lw = "null" then .vnull
    else
      match pyInt st.data with
      | some n => .vint n
      | none =>
        if pyFloatShape st.data then .vfloat st
        else if jsonGate st.data then
          match jdec st with
          | some v => v
          | none => .vstr raw
        else .vstr raw
  | v => v

-- ## The dot-path accessor pair `get_by_dot` / `set_by_dot`

/-- Error kinds of the path accessors: `KeyError` (a segment is absent) and
`TypeError` (a non-mapping node is indexed as though it were a mapping). -/
inductive PErr where
  | keyNotFound
  | typeErr
deriving DecidableEq

/-- `get_by_dot` on an already-split path: before each segment access the
current node must be a mapping, and the segment must be present. -/
def get_by_dot : Value → List String → Except PErr Value
  | v, [] => .ok v
  | .vdict _ es, p :: rest =>
    (match alGet es p with
     | some v => get_by_dot v rest
     | none => .error .keyNotFound)
  | _, _ :: _ => .error .typeErr

def exOk : Except PErr α → Bool
  | .ok _ => true
  | .error _ => false

def errKind : Except PErr α → Option PErr
  | .ok _ => none
  | .error e => some e

-- ## Config wrapping

mutual

/-- `Config(value)` for a dict value, and `_wrap_nested_items`: the node
and every nested dict (also inside lists, recursively) becomes a `Config`. -/
def wrapAll : Value → Value
  | .vdict _ es => .vdict true (wrapAllEnt es)
  | .vlist xs => .vlist (wrapAllList xs)
  | v => v

def wrapAllEnt : Entries → Entries
  | .nil => .nil
  | .cons k v rest => .cons k (wrapAll v) (wrapAllEnt rest)

def wrapAllList : VList → VList
  | .nil => .nil
  | .cons v rest => .cons (wrapAll v) (wrapAllList rest)

end

/-- The wrap on the final segment of `set_by_dot`: inside a `Config`
container a plain dict value is wrapped as `Config(value)`. -/
def wrapFinal (cfg : Bool) (v : Value) : Value :=
  if cfg then
    match v with
    | .vdict false es => wrapAll (.vdict false es)
    | v2 => v2
  else v

/-- `set_by_dot` on an already-split path, acting on a dict given as its
`Config` flag and entries.  In-place mutation is modelled by returning the
updated dict.  With `cm = true` absent or non-dict intermediate segments
are replaced by a fresh empty dict (a `Config` when the containing dict is
one); with `cm = false` the traversal raises `KeyError` for an absent
segment (including an absent final segment) and `TypeError` for a non-dict
intermediate value. -/
def setGo (cfg : Bool) (es : Entries) : List String → Value → Bool → Except PErr (Bool × Entries)
  | [], _, _ => .ok (cfg, es)
  | [fin], v, cm =>
    if cm = false && (alGet es fin).isNone then .error .keyNotFound
    else .ok (cfg, alSet es fin (wrapFinal cfg v))
  | p :: rest, v, cm =>
    match alGet es p with
    | some (.vdict c2 es2) =>
      (setGo c2 es2 rest v cm).map (fun r => (cfg, alSet es p (.vdict r.1 r.2)))
    | some _ =>
      if cm then (setGo cfg .nil rest v cm).map (fun r => (cfg, alSet es p (.vdict r.1 r.2)))
      else .error .typeErr
    | none =>
      if cm then (setGo cfg .nil rest v cm).map (fun r => (cfg, alSet es p (.vdict r.1 r.2)))
      else .error .keyNotFound

def set_by_dot (v : Value) (parts : List String) (x : Value) (cm : Bool) : Except PErr Value :=
  match v with
  | .vdict c es => (setGo c es parts x cm).map (fun r => Value.vdict r.1 r.2)
  | _ => .error .typeErr

-- ## deep_merge

/-- `deep_merge(base, updates)`: start from a deep copy of `base`; for each
key of `updates` in order, if both values are dict-like merge recursively
(the merged node keeps the type — the `cfg` flag — of the base value),
otherwise the updates value replaces the base value entirely. -/
def deep_merge : Entries → Entries → Entries
  | base, .nil => base
  | base, .cons k (Value.vdict cu eu) rest =>
    (match alGet base k with
     | some (Value.vdict cb eb) =>
       deep_merge (alSet base k (Value.vdict cb (deep_merge eb eu))) rest
     | _ => deep_merge (alSet base k (Value.vdict cu eu)) rest)
  | base, .cons k vu rest => deep_merge (alSet base k vu) rest

/-- The value installed by `deep_merge` at one key of `updates`, given the
base value at that key. -/
def mergeVal : Option Value → Value → Value
  | some (.vdict cb eb), .vdict _ eu => .vdict cb (deep_merge eb eu)
  | _, vu => vu

/-- Aliasing instrumentation for `deep_merge`, mirroring its branch
structure: the result is `true` exactly when some replaced value from
`updates` is a `Config` object, which the source installs by reference
(`merged[key] = value_updates`, the `isinstance(value_updates, Config)`
branch) instead of deep-copying — mutating that subtree of the result then
also mutates `updates`.  All other installed values are deep copies, and
the base is deep-copied on entry, so no other sharing with either argument
exists. -/
def dmShares : Entries → Entries → Bool
  | _, .nil => false
  | base, .cons k (Value.vdict cu eu) rest =>
    (match alGet base k with
     | some (Value.vdict cb eb) =>
       dmShares eb eu || dmShares (alSet base k (Value.vdict cb (deep_merge eb eu))) rest
     | _ =>
       cu || dmShares (alSet base k (Value.vdict cu eu)) rest)
  | base, .cons k vu rest => dmShares (alSet base k vu) rest

mutual

/-- No `Config` object occurs anywhere in the value. -/
def noConfigV : Value → Bool
  | .vdict c es => !c && noConfigEnt es
  | .vlist xs => noConfigList xs
  | _ => true

def noConfigEnt : Entries → Bool
  | .nil => true
  | .cons _ v rest => noConfigV v && noConfigEnt rest

def noConfigList : VList → Bool
  | .nil => true
  | .cons v rest => noConfigV v && noConfigList rest

end

mutual

/-- Keys of every dict level are duplicate-free (true of any tree built
from real Python dicts). -/
def entriesWF : Entries → Bool
  | .nil => true
  | .cons k v rest => !((alKeys rest).contains k) && valWF v && entriesWF rest

/-- Well-formedness of a value: its dict levels have duplicate-free keys. -/
def valWF : Value → Bool
  | .vdict _ es => entriesWF es
  | _ => true

end

-- ## Mandatory-key validation

/-- `_validate_mandatory`: check every mandatory dot-path with
`get_by_dot`, collecting every failing one (both `KeyError` and
`TypeError` count as missing), then raise `MissingMandatoryConfig`
carrying the collected list iff it is nonempty.  `some missing` models the
raised exception and its `missing_keys` payload. -/
def validate_mandatory (tree : Value) (keys : List String) : Option (List String) :=
  let missing := keys.filter (fun k => !(exOk (get_by_dot tree (splitOnDot k))))
  if missing.isEmpty then none else some missing

-- ## Env-var collection (`_collect_env_vars`)

/-- The fixed deny-list of system variable names or name stems skipped
when scanning with an empty prefix. -/
def systemStems : List String :=
  ["XDG_", "ZSH_", "TERM_", "COLORTERM", "SSH_", "HOME", "PWD", "USER",
   "SHELL", "LANG", "LC_", "DISPLAY", "PATH", "_", "SHLVL", "OLDPWD",
   "EDITOR", "PAGER", "LESS", "VISUAL", "VIRTUAL_ENV", "WINDOWID",
   "HOSTTYPE", "OSTYPE", "MACHTYPE", "LS_", "PYTHONUTF8", "PYTHONPATH",
   "PS1", "PS2", "WINDOWPATH", "QTWEBENGINE_", "QT_", "MOZ_", "GDK_",
   "GTK_", "BROWSER", "MAIL", "LOGNAME", "USERNAME", "SYSTEMROOT", "TEMP",
   "TMP", "PROMPT", "HOSTNAME", "DOMAINNAME", "MANPATH"]

def isSystemVar (varUpper : String) : Bool :=
  systemStems.any (fun stem => startsWithS (upperS stem) varUpper)

/-- The `PREFIX_` match pattern: the prefix argument is stripped of
whitespace, trailing underscores are normalized to exactly one.  Empty
when the prefix is `None` or whitespace-only. -/
def pfxMatch (px : Option String) : String :=
  match px with
  | none => ""
  | some s =>
    let s2 := trimS s
    if s2 = "" then "" else rstripUnderscore s2 ++ "_"

/-- `_collect_env_vars`: scan the environment snapshot in order; a variable
is processed when its name starts (case-insensitively) with the match
pattern, or, with an empty (stripped) prefix, when it is not a system
variable.  The post-prefix remainder is lowercased, double underscores
become literal underscores, single underscores become dots; the parsed
value is set into a nested plain-dict overlay with `create_missing`. -/
def collect_env_vars (jdec : String → Option Value)
    (env : List (String × String)) (px : Option String) : Entries :=
  let pm := pfxMatch px
  let plen := pm.data.length
  let pmUpper := upperS pm
  let pxStripped : Option String := px.map trimS
  env.foldl
    (fun acc (pair : String × String) =>
      let varUpper := upperS pair.1
      let shouldProcess :=
        if pmUpper ≠ "" then startsWithS pmUpper varUpper
        else if pxStripped = some "" then !(isSystemVar varUpper)
        else false
      if shouldProcess then
        let keyPart := pair.1.data.drop plen
        if keyPart.isEmpty && pxStripped ≠ some "" then acc
        else
          let dotKey := envDotKey keyPart
          let val := parse_value jdec (.vstr pair.2)
          match setGo false acc (splitOnDot dotKey) val true with
          | .ok r => r.2
          | .error _ => acc
      else acc)
    .nil

-- ## Env remapping (`_remap_and_flatten_env_data`)

/-- `_flatten_keys`: every dot-notation key of the tree, parents included. -/
def flatten_keys (pre : String) : Entries → List String
  | .nil => []
  | .cons k v rest =>
    let nk := if pre = "" then k else pre ++ "." ++ k
    nk :: ((match v with
            | .vdict _ es => flatten_keys nk es
            | _ => []) ++ flatten_keys pre rest)

/-- The local `_get_flat_items` helper: dot-keyed leaf items of a nested
overlay (dict nodes recursed into, not emitted). -/
def flatItems (pre : String) : Entries → List (String × Value)
  | .nil => []
  | .cons k v rest =>
    let nk := if pre = "" then k else pre ++ "." ++ k
    (match v with
     | .vdict _ es => flatItems nk es
     | v2 => [(nk, v2)]) ++ flatItems pre rest

/-- Attempt 2 of the remapper: search decreasing-length dot-prefixes of the
overlay path (from `parts.length - 1` segments down to 1) for one that is a
known key whose value in the known structure is a dict; remap to that
prefix followed by the underscore-joined remainder. -/
def attempt2 (validKeys : List String) (base : Entries) (parts : List String) : Nat → Option String
  | 0 => none
  | i + 1 =>
    let root := joinC '.' (parts.take (i + 1))
    if validKeys.contains root then
      match get_by_dot (.vdict false base) (parts.take (i + 1)) with
      | .ok (.vdict _ _) =>
        some (root ++ "." ++ joinC '_' (parts.drop (i + 1)))
      | _ => attempt2 validKeys base parts i
    else attempt2 validKeys base parts i

/-- The remap search for one overlay dot-path: heuristic 0 (re-split the
underscore-joined form at its first underscore and test that as a known
key), then the exact underscore-joined key, then decreasing dot-prefixes;
`none` when no remap target exists. -/
def remapTarget (validKeys : List String) (base : Entries) (dotKey : String) : Option String :=
  let rec0 := replaceC '.' '_' dotKey
  let h0 : Option String :=
    match splitFirstC '_' rec0 with
    | some (bef, aft) =>
      let cand := bef ++ "." ++ aft
      if validKeys.contains cand then some cand else none
    | none => none
  match h0 with
  | some k => some k
  | none =>
    if validKeys.contains rec0 then some rec0
    else
      let parts := splitOnDot dotKey
      attempt2 validKeys base parts (parts.length - 1)

/-- The documented fallback applied when no remap target exists: with an
empty prefix, or when a dotenv file load was requested, the dot form is
preserved as-is; otherwise the path collapses back to a single
underscore-joined flat key. -/
def fallbackKey (px : Option String) (loadDotenv : Bool) (dotKey : String) : String :=
  if px = some "" then dotKey
  else if loadDotenv then dotKey
  else replaceC '.' '_' dotKey

/-- Flat-dict lookup for the remap accumulator. -/
def flGet : List (String × Value) → String → Option Value
  | [], _ => none
  | (k2, v) :: rest, k => if k2 = k then some v else flGet rest k

/-- The key finally assigned to one overlay dot-path: its remap target
when one exists, else the documented fallback. -/
def finalKeyFor (validKeys : List String) (base : Entries) (px : Option String)
    (loadDotenv : Bool) (dotKey : String) : String :=
  match remapTarget validKeys base dotKey with
  | some k => k
  | none => fallbackKey px loadDotenv dotKey

/-- `_remap_and_flatten_env_data`: flatten the overlay to leaf items,
process them deepest first (stably, by dot count), remap each against the
deep merge of defaults and file data, and collect into a flat dict where
the first writer of a target key wins. -/
def remap_and_flatten_env_data (nested defaultsData fileData : Entries)
    (px : Option String) (loadDotenv : Bool) : List (String × Value) :=
  let baseCheck := deep_merge defaultsData fileData
  let validKeys := flatten_keys "" baseCheck
  let items := flatItems "" nested
  let sorted := stableSort (fun a b => decide (countC '.' b.1 ≤ countC '.' a.1)) items
  sorted.foldl
    (fun acc (item : String × Value) =>
      let fk := finalKeyFor validKeys baseCheck px loadDotenv item.1
      if (flGet acc fk).isSome then acc else acc ++ [(fk, item.2)])
    []

-- ## Structuring overrides (`_structure_overrides`)

/-- `_structure_overrides`: parse each value of the flat dot-keyed mapping
and set it into a fresh nested plain dict, keys in sorted order. -/
def structure_overrides (jdec : String → Option Value)
    (ov : List (String × Value)) : Entries :=
  let ks := stableSort strLe (ov.map Prod.fst)
  ks.foldl
    (fun acc k =>
      match flGet ov k with
      | some raw =>
        (match setGo false acc (splitOnDot k) (parse_value jdec raw) true with
         | .ok r => r.2
         | .error _ => acc)
      | none => acc)
    .nil

-- ## The `Config.__init__` merge pipeline (steps 1 to 5)

/-- Steps 1 to 4 of `Config.__init__` on already-loaded data: merge
defaults, initial data, file data, the structured remapped environment
overlay, and the structured explicit overrides, in that order (each merge
is skipped when its layer is empty, which for `deep_merge` is the same as
merging an empty dict). -/
def config_final (jdec : String → Option Value)
    (defaultsData initialData fileData : Entries)
    (env : List (String × String)) (px : Option String) (loadDotenv : Bool)
    (ov : List (String × Value)) : Entries :=
  let m1 := if initialData.isNil then defaultsData else deep_merge defaultsData initialData
  let m2 := if fileData.isNil then m1 else deep_merge m1 fileData
  let nested := collect_env_vars jdec env px
  let m3 :=
    if nested.isNil then m2
    else
      deep_merge m2
        (structure_overrides jdec
          (remap_and_flatten_env_data nested defaultsData fileData px loadDotenv))
  let ovS := structure_overrides jdec ov
  if ovS.isNil then m3 else deep_merge m3 ovS

/-- Step 5: the final merged data becomes the `Config` itself, with every
nested mapping wrapped. -/
def config_tree (jdec : String → Option Value)
    (defaultsData initialData fileData : Entries)
    (env : List (String × String)) (px : Option String) (loadDotenv : Bool)
    (ov : List (String × Value)) : Value :=
  wrapAll (.vdict false (config_final jdec defaultsData initialData fileData env px loadDotenv ov))

-- ## TOML key promotion (`_load_config_file`)

/-- One key considered for promotion inside one section: promoted when it
is not already at the root of the file data, or was itself promoted
earlier; promotion pops it from the section and installs it at the root. -/
def promoteKeys (roots : List String) :
    Entries × List String × Entries → Entries → Entries × List String × Entries
  | st, .nil => st
  | (fc, prom, sec), .cons k v rest =>
    if roots.contains k then
      if (alGet fc k).isNone || prom.contains k then
        promoteKeys roots (alSet fc k v, k :: prom, alDel sec k) rest
      else promoteKeys roots (fc, prom, sec) rest
    else promoteKeys roots (fc, prom, sec) rest

/-- One snapshot entry of the promotion loop: only dict-valued sections are
examined; a section left empty by promotion is deleted from the file data,
otherwise the popped-down section replaces the original. -/
def promoteStep (roots : List String) :
    Entries × List String → String × Value → Entries × List String
  | (fc, prom), (sk, .vdict c es) =>
    let r := promoteKeys roots (fc, prom, es) es
    if r.2.2.isNil then (alDel r.1 sk, r.2.1)
    else (alSet r.1 sk (.vdict c r.2.2), r.2.1)
  | (fc, prom), _ => (fc, prom)

/-- Snapshot of the top-level items, as `list(file_content.items())`. -/
def entryPairs : Entries → List (String × Value)
  | .nil => []
  | .cons k v rest => (k, v) :: entryPairs rest

/-- The TOML key-promotion pass of `_load_config_file`: when both the
parsed file content and the defaults are nonempty, iterate over a snapshot
of the top-level items and promote matching keys to the root. -/
def promoteToml (defaultsData fileContent : Entries) : Entries :=
  if fileContent.isNil || defaultsData.isNil then fileContent
  else ((entryPairs fileContent).foldl (promoteStep (alKeys defaultsData)) (fileContent, [])).1

-- ## The provenance ledger (`confy/provenance.py`)

/-- A provenance entry: the value set, the source label, and the full
dot-notation key. -/
structure PEntry where
  value : Value
  source : String
  key : String

/-- The `ProvenanceStore`: current entries and per-key override history. -/
structure PStore where
  entries : List (String × PEntry)
  history : List (String × List PEntry)

def emptyStore : PStore := ⟨[], []⟩

/-- Lookup in `_entries` (a Python dict keyed by dot-path). -/
def pFindE : List (String × PEntry) → String → Option PEntry
  | [], _ => none
  | (k2, e) :: rest, k => if k2 = k then some e else pFindE rest k

def pGetEntry (st : PStore) (k : String) : Option PEntry :=
  pFindE st.entries k

/-- Lookup in `_history` (`self._history.get(key, [])`). -/
def pFindH : List (String × List PEntry) → String → Option (List PEntry)
  | [], _ => none
  | (k2, l) :: rest, k => if k2 = k then some l else pFindH rest k

def pGetHist (hs : List (String × List PEntry)) (k : String) : List PEntry :=
  (pFindH hs k).getD []

def pSetEntry (es : List (String × PEntry)) (k : String) (e : PEntry) : List (String × PEntry) :=
  match es with
  | [] => [(k, e)]
  | (k2, e2) :: rest => if k2 = k then (k2, e) :: rest else (k2, e2) :: pSetEntry rest k e

def pSetHist (hs : List (String × List PEntry)) (k : String) (l : List PEntry) :
    List (String × List PEntry) :=
  match hs with
  | [] => [(k, l)]
  | (k2, l2) :: rest => if k2 = k then (k2, l) :: rest else (k2, l2) :: pSetHist rest k l

/-- `ProvenanceStore.record`: when the key already has a current entry it
is appended to the key's history list before the new entry is installed as
current; nothing is ever deleted. -/
def record (st : PStore) (k : String) (v : Value) (src : String) : PStore :=
  let e : PEntry := ⟨v, src, k⟩
  match pGetEntry st k with
  | some old => ⟨pSetEntry st.entries k e, pSetHist st.history k (pGetHist st.history k ++ [old])⟩
  | none => ⟨pSetEntry st.entries k e, st.history⟩

/-- `ProvenanceStore.get`. -/
def pGet (st : PStore) (k : String) : Option PEntry := pGetEntry st k

/-- `ProvenanceStore.get_history`: the key's history followed by its
current entry, oldest first; empty for a key never recorded. -/
def get_history (st : PStore) (k : String) : List PEntry :=
  let h := pGetHist st.history k
  match pGetEntry st k with
  | some cur => h ++ [cur]
  | none => h

/-- N successive `record` calls for one key, in order. -/
def recordSeq (st : PStore) (k : String) : List (Value × String) → PStore
  | [] => st
  | (v, src) :: rest => recordSeq (record st k v src) k rest

-- ## Association-list lemmas

theorem alGet_alSet_self (es : Entries) (k : String) (v : Value) :
    alGet (alSet es k v) k = some v := by
  induction es using Entries.spine with
  | h1 => simp [alSet, alGet]
  | h2 k2 v2 rest ih =>
    by_cases h : k2 = k
    · simp [alSet, alGet, h]
    · simp [alSet, alGet, h, ih]

theorem alGet_alSet_ne (es : Entries) (k k2 : String) (v : Value) (h : k ≠ k2) :
    alGet (alSet es k v) k2 = alGet es k2 := by
  induction es using Entries.spine with
  | h1 => simp [alSet, alGet, h]
  | h2 k3 v3 rest ih =>
    by_cases h3 : k3 = k
    · subst h3
      simp [alSet, alGet, h]
    · simp only [alSet, if_neg h3, alGet]
      by_cases h4 : k3 = k2
      · simp [h4]
      · simp [h4, ih]

/-- Top-level keys are duplicate-free. -/
def ndKeys : Entries → Bool
  | .nil => true
  | .cons k _ rest => !((alKeys rest).contains k) && ndKeys rest

theorem alGet_none_of_not_contains (es : Entries) (k : String)
    (h : (alKeys es).contains k = false) : alGet es k = none := by
  induction es using Entries.spine with
  | h1 => simp [alGet]
  | h2 k2 v2 rest ih =>
    simp only [alKeys, List.contains_cons, Bool.or_eq_false_iff] at h
    have hne : k2 ≠ k := by
      intro hEq
      subst hEq
      simp at h
    simp [alGet, hne, ih h.2]

theorem entriesWF_ndKeys (es : Entries) (h : entriesWF es = true) : ndKeys es = true := by
  induction es using Entries.spine with
  | h1 => simp [ndKeys]
  | h2 k2 v2 rest ih =>
    simp only [entriesWF, Bool.and_eq_true] at h
    simp only [ndKeys, Bool.and_eq_true]
    exact ⟨h.1.1, ih h.2⟩

theorem entriesWF_nested (es : Entries) (k : String) (c : Bool) (es2 : Entries)
    (h : entriesWF es = true) (hg : alGet es k = some (.vdict c es2)) :
    entriesWF es2 = true := by
  induction es using Entries.spine with
  | h1 => simp [alGet] at hg
  | h2 k2 v2 rest ih =>
    simp only [entriesWF, Bool.and_eq_true] at h
    by_cases h2 : k2 = k
    · simp only [alGet, if_pos h2] at hg
      cases hg
      simpa [valWF] using h.1.2
    · simp only [alGet, if_neg h2] at hg
      exact ih h.2 hg

-- ## deep_merge per-key lemmas

/-- The stepping equation of `deep_merge`, with the per-key result
factored through `mergeVal`. -/
theorem deep_merge_cons (b : Entries) (k : String) (vu : Value) (rest : Entries) :
    deep_merge b (.cons k vu rest) = deep_merge (alSet b k (mergeVal (alGet b k) vu)) rest := by
  cases vu with
  | vdict cu eu =>
    cases hb : alGet b k with
    | none => simp [deep_merge, mergeVal, hb]
    | some vb =>
      cases vb <;> simp [deep_merge, mergeVal, hb]
  | vstr s => simp [deep_merge, mergeVal]
  | vint n => simp [deep_merge, mergeVal]
  | vfloat s => simp [deep_merge, mergeVal]
  | vbool b2 => simp [deep_merge, mergeVal]
  | vnull => simp [deep_merge, mergeVal]
  | vlist xs => simp [deep_merge, mergeVal]

theorem deep_merge_nil (b : Entries) : deep_merge b .nil = b := rfl

/-- A key absent from `updates` keeps its base value. -/
theorem alGet_deep_merge_absent (u : Entries) : ∀ (b : Entries) (k : String),
    alGet u k = none → alGet (deep_merge b u) k = alGet b k := by
  induction u using Entries.spine with
  | h1 => intro b k _; rfl
  | h2 k2 v2 rest ih =>
    intro b k h
    simp only [alGet] at h
    by_cases h2 : k2 = k
    · simp [h2] at h
    · simp only [if_neg h2] at h
      rw [deep_merge_cons, ih _ _ h, alGet_alSet_ne _ _ _ _ h2]

/-- A key present in `updates` (whose top-level keys are duplicate-free,
as in a real dict) gets the `mergeVal` of the two values. -/
theorem alGet_deep_merge_present (u : Entries) : ∀ (b : Entries) (k : String) (vu : Value),
    ndKeys u = true → alGet u k = some vu →
    alGet (deep_merge b u) k = some (mergeVal (alGet b k) vu) := by
  induction u using Entries.spine with
  | h1 => intro b k vu _ h; simp [alGet] at h
  | h2 k2 v2 rest ih =>
    intro b k vu hnd h
    simp only [ndKeys, Bool.and_eq_true] at hnd
    by_cases h2 : k2 = k
    · subst h2
      simp only [alGet, if_pos] at h
      rw [Option.some_inj] at h
      subst h
      rw [deep_merge_cons]
      have habs : alGet rest k2 = none := by
        apply alGet_none_of_not_contains
        simpa using hnd.1
      rw [alGet_deep_merge_absent _ _ _ habs, alGet_alSet_self]
    · simp only [alGet, if_neg h2] at h
      rw [deep_merge_cons, ih _ _ _ hnd.2 h, alGet_alSet_ne _ _ _ _ h2]

-- ## deep_merge along dot-paths

/-- A leaf (non-dict) value defined by `updates` at a dot-path is the final
value of the merge at that path. -/
theorem dm_override (p : List String) : ∀ (b u : Entries) (cb cu : Bool) (v : Value),
    entriesWF u = true →
    get_by_dot (.vdict cu u) p = .ok v → isDictV v = false →
    get_by_dot (.vdict cb (deep_merge b u)) p = .ok v := by
  induction p with
  | nil =>
    intro b u cb cu v _ h hv
    simp only [get_by_dot] at h
    cases h
    simp [isDictV] at hv
  | cons k rest ih =>
    intro b u cb cu v hwf h hv
    simp only [get_by_dot] at h ⊢
    cases hu : alGet u k with
    | none => rw [hu] at h; simp at h
    | some vu =>
      rw [hu] at h
      rw [alGet_deep_merge_present u b k vu (entriesWF_ndKeys u hwf) hu]
      cases vu with
      | vdict cu2 eu =>
        cases hb : alGet b k with
        | none => simpa [mergeVal, hb] using h
        | some vb =>
          cases vb with
          | vdict cb2 eb =>
            simp only [mergeVal, hb]
            cases rest with
            | nil =>
              simp only [get_by_dot] at h
              cases h
              simp [isDictV] at hv
            | cons q qs =>
              exact ih eb eu cb2 cu2 v (entriesWF_nested u k cu2 eu hwf hu) h hv
          | vstr s => simpa [mergeVal, hb] using h
          | vint n => simpa [mergeVal, hb] using h
          | vfloat s => simpa [mergeVal, hb] using h
          | vbool b2 => simpa [mergeVal, hb] using h
          | vnull => simpa [mergeVal, hb] using h
          | vlist xs => simpa [mergeVal, hb] using h
      | vstr s => simpa [mergeVal] using h
      | vint n => simpa [mergeVal] using h
      | vfloat s => simpa [mergeVal] using h
      | vbool b2 => simpa [mergeVal] using h
      | vnull => simpa [mergeVal] using h
      | vlist xs => simpa [mergeVal] using h

/-- `updates` leaves a dot-path of `base` untouched: somewhere along the
path the key is absent from `updates`, every segment before that point
being a dict in `updates`. -/
def preservesPath : Entries → List String → Bool
  | _, [] => false
  | u, k :: rest =>
    match alGet u k with
    | none => true
    | some (.vdict _ es) => !rest.isEmpty && preservesPath es rest
    | some _ => false

theorem preservesPath_cons (u : Entries) (k : String) (rest : List String) :
    preservesPath u (k :: rest) =
      (match alGet u k with
       | none => true
       | some (.vdict _ es) => !rest.isEmpty && preservesPath es rest
       | some _ => false) := rfl

/-- A base value at a dot-path that `updates` preserves survives the merge. -/
theorem dm_preserve (p : List String) : ∀ (b u : Entries) (cb cu : Bool) (v : Value),
    entriesWF u = true →
    get_by_dot (.vdict cb b) p = .ok v → preservesPath u p = true →
    get_by_dot (.vdict cu (deep_merge b u)) p = .ok v := by
  induction p with
  | nil => intro b u cb cu v _ _ hp; simp [preservesPath] at hp
  | cons k rest ih =>
    intro b u cb cu v hwf h hp
    simp only [get_by_dot] at h ⊢
    rw [preservesPath_cons] at hp
    cases hb : alGet b k with
    | none => rw [hb] at h; simp at h
    | some vb =>
      rw [hb] at h
      cases hu : alGet u k with
      | none =>
        rw [alGet_deep_merge_absent u b k hu, hb]
        exact h
      | some vu =>
        rw [hu] at hp
        cases vu with
        | vdict cu2 eu =>
          cases rest with
          | nil => simp at hp
          | cons q qs =>
            simp only [List.isEmpty, Bool.not_false, Bool.true_and] at hp
            rw [alGet_deep_merge_present u b k _ (entriesWF_ndKeys u hwf) hu]
            cases vb with
            | vdict cb2 eb =>
              simp only [mergeVal, hb]
              exact ih eb eu cb2 cu2 v (entriesWF_nested u k cu2 eu hwf hu) h hp
            | vstr s => simp [get_by_dot] at h
            | vint n => simp [get_by_dot] at h
            | vfloat s => simp [get_by_dot] at h
            | vbool b2 => simp [get_by_dot] at h
            | vnull => simp [get_by_dot] at h
            | vlist xs => simp [get_by_dot] at h
        | vstr s => simp at hp
        | vint n => simp at hp
        | vfloat s => simp at hp
        | vbool b2 => simp at hp
        | vnull => simp at hp
        | vlist xs => simp at hp

-- ## The precedence fold over source layers

/-- Folding `deep_merge` over the source layers in precedence order,
lowest first — the shape of steps 2 to 4 of `Config.__init__`. -/
def mergeLayers (first : Entries) (rest : List Entries) : Entries :=
  rest.foldl deep_merge first

/-- The environment layer merged by step 3: the collected overlay,
remapped against defaults and file data, then structured. -/
def envLayer (jdec : String → Option Value) (defaultsData fileData : Entries)
    (env : List (String × String)) (px : Option String) (loadDotenv : Bool) : Entries :=
  structure_overrides jdec
    (remap_and_flatten_env_data (collect_env_vars jdec env px) defaultsData fileData px loadDotenv)

theorem foldl_preserve (post : List Entries) : ∀ (acc : Entries) (cb : Bool) (p : List String) (v : Value),
    (∀ M ∈ post, entriesWF M = true ∧ preservesPath M p = true) →
    get_by_dot (.vdict cb acc) p = .ok v →
    get_by_dot (.vdict cb (post.foldl deep_merge acc)) p = .ok v := by
  induction post with
  | nil => intro acc cb p v _ h; exact h
  | cons M ms ih =>
    intro acc cb p v hM h
    have hM1 := hM M (by simp)
    simp only [List.foldl_cons]
    exact ih (deep_merge acc M) cb p v (fun N hN => hM N (by simp [hN]))
      (dm_preserve p acc M cb cb v hM1.1 h hM1.2)

/-- Precedence for a layer in the tail of the fold: its leaf value at a
dot-path wins when every later layer preserves that path. -/
theorem mergeLayers_prec (first : Entries) (pre : List Entries) (L : Entries)
    (post : List Entries) (cb cL : Bool) (p : List String) (v : Value)
    (hwf : entriesWF L = true)
    (hv : get_by_dot (.vdict cL L) p = .ok v) (hleaf : isDictV v = false)
    (hpost : ∀ M ∈ post, entriesWF M = true ∧ preservesPath M p = true) :
    get_by_dot (.vdict cb (mergeLayers first (pre ++ L :: post))) p = .ok v := by
  simp only [mergeLayers, List.foldl_append, List.foldl_cons]
  exact foldl_preserve post (deep_merge (pre.foldl deep_merge first) L) cb p v hpost
    (dm_override p (pre.foldl deep_merge first) L cb cL v hwf hv hleaf)

/-- Precedence for the first layer of the fold: its value at a dot-path
survives when every later layer preserves that path. -/
theorem mergeLayers_first (first : Entries) (rest : List Entries) (cb cf : Bool)
    (p : List String) (v : Value)
    (hv : get_by_dot (.vdict cf first) p = .ok v) (hleaf : isDictV v = false)
    (hrest : ∀ M ∈ rest, entriesWF M = true ∧ preservesPath M p = true) :
    get_by_dot (.vdict cb (mergeLayers first rest)) p = .ok v := by
  have h2 := foldl_preserve rest first cb p v hrest
  simp only [mergeLayers]
  apply h2
  cases p with
  | nil =>
    simp only [get_by_dot] at hv
    cases hv
    simp [isDictV] at hleaf
  | cons q qs => exact hv

/-- Steps 2 to 4 of `Config.__init__` are exactly the fold of `deep_merge`
over the five source layers in the fixed precedence order: defaults,
initial data, file data, the structured environment overlay, the
structured explicit overrides (conditionally skipped empty layers merge as
empty dicts, which `deep_merge` ignores). -/
theorem config_final_eq (jdec : String → Option Value) (d i f : Entries)
    (env : List (String × String)) (px : Option String) (ld : Bool)
    (ov : List (String × Value)) :
    config_final jdec d i f env px ld ov =
      mergeLayers d [i, f, envLayer jdec d f env px ld, structure_overrides jdec ov] := by
  unfold config_final mergeLayers envLayer
  simp only [List.foldl_cons, List.foldl_nil]
  cases hn : collect_env_vars jdec env px with
  | nil =>
    have hz : structure_overrides jdec (remap_and_flatten_env_data Entries.nil d f px ld)
        = Entries.nil := rfl
    rw [hz]
    cases i <;> cases f <;> cases hov : structure_overrides jdec ov <;>
      simp [Entries.isNil, deep_merge_nil]
  | cons k v rest =>
    cases i <;> cases f <;> cases hov : structure_overrides jdec ov <;>
      simp [Entries.isNil, deep_merge_nil]

-- ## Support lemmas for the claims

/-- Both the base value (when present) and the updates value are dicts —
the recursive branch of `deep_merge`. -/
def isBothDict : Option Value → Value → Bool
  | some (.vdict _ _), .vdict _ _ => true
  | _, _ => false

theorem mergeVal_not_both (ob : Option Value) (vu : Value)
    (h : isBothDict ob vu = false) : mergeVal ob vu = vu := by
  cases ob with
  | none => cases vu <;> rfl
  | some vb => cases vb <;> cases vu <;> first
    | rfl
    | simp [isBothDict] at h

theorem dmShares_noConfig : ∀ (u b : Entries), noConfigEnt u = true → dmShares b u = false
  | .nil, _, _ => rfl
  | .cons k vu rest, b, h => by
    have h2 : noConfigV vu = true ∧ noConfigEnt rest = true := by
      simpa [noConfigEnt] using h
    cases vu with
    | vdict cu eu =>
      have h3 : cu = false ∧ noConfigEnt eu = true := by
        have h4 := h2.1
        simp only [noConfigV, Bool.and_eq_true, Bool.not_eq_true'] at h4
        exact h4
      cases hb : alGet b k with
      | some vb =>
        cases vb with
        | vdict cb eb =>
          simp only [dmShares, hb]
          rw [dmShares_noConfig eu eb h3.2, dmShares_noConfig rest _ h2.2]
          rfl
        | vstr s =>
          simp only [dmShares, hb, h3.1]
          exact dmShares_noConfig rest _ h2.2
        | vint n =>
          simp only [dmShares, hb, h3.1]
          exact dmShares_noConfig rest _ h2.2
        | vfloat s =>
          simp only [dmShares, hb, h3.1]
          exact dmShares_noConfig rest _ h2.2
        | vbool b2 =>
          simp only [dmShares, hb, h3.1]
          exact dmShares_noConfig rest _ h2.2
        | vnull =>
          simp only [dmShares, hb, h3.1]
          exact dmShares_noConfig rest _ h2.2
        | vlist xs =>
          simp only [dmShares, hb, h3.1]
          exact dmShares_noConfig rest _ h2.2
      | none =>
        simp only [dmShares, hb, h3.1]
        exact dmShares_noConfig rest _ h2.2
    | vstr s => exact dmShares_noConfig rest _ h2.2
    | vint n => exact dmShares_noConfig rest _ h2.2
    | vfloat s => exact dmShares_noConfig rest _ h2.2
    | vbool b2 => exact dmShares_noConfig rest _ h2.2
    | vnull => exact dmShares_noConfig rest _ h2.2
    | vlist xs => exact dmShares_noConfig rest _ h2.2

theorem mem_stableInsert (le : α → α → Bool) (x a : α) :
    ∀ (l : List α), a ∈ stableInsert le x l → a = x ∨ a ∈ l := by
  intro l
  induction l with
  | nil => intro h; simpa [stableInsert] using h
  | cons y ys ih =>
    intro h
    simp only [stableInsert] at h
    by_cases hc : le y x = true
    · rw [if_pos hc] at h
      rcases List.mem_cons.mp h with h4 | h4
      · right; simp [h4]
      · rcases ih h4 with h5 | h5
        · left; exact h5
        · right; simp [h5]
    · rw [if_neg hc] at h
      rcases List.mem_cons.mp h with h4 | h4
      · left; exact h4
      · right; exact h4

theorem mem_stableSort_aux (le : α → α → Bool) :
    ∀ (l acc : List α) (a : α), a ∈ l.foldl (fun acc2 x => stableInsert le x acc2) acc →
      a ∈ acc ∨ a ∈ l := by
  intro l
  induction l with
  | nil => intro acc a h; exact Or.inl h
  | cons x xs ih =>
    intro acc a h
    rcases ih (stableInsert le x acc) a h with h2 | h2
    · rcases mem_stableInsert le x a acc h2 with h3 | h3
      · right; simp [h3]
      · left; exact h3
    · right; simp [h2]

theorem mem_stableSort (le : α → α → Bool) (l : List α) (a : α)
    (h : a ∈ stableSort le l) : a ∈ l := by
  rcases mem_stableSort_aux le l [] a h with h2 | h2
  · simp at h2
  · exact h2

theorem mem_addIfAbsent_fold (keyF : String × Value → String) :
    ∀ (l acc : List (String × Value)) (it : String × Value),
      it ∈ l.foldl
        (fun acc2 x => if (flGet acc2 (keyF x)).isSome then acc2 else acc2 ++ [(keyF x, x.2)])
        acc →
      it ∈ acc ∨ ∃ x ∈ l, it = (keyF x, x.2) := by
  intro l
  induction l with
  | nil => intro acc it h; exact Or.inl h
  | cons x xs ih =>
    intro acc it h
    simp only [List.foldl_cons] at h
    rcases ih _ it h with h2 | h2
    · by_cases hc : (flGet acc (keyF x)).isSome = true
      · rw [if_pos hc] at h2
        exact Or.inl h2
      · rw [if_neg hc] at h2
        rcases List.mem_append.mp h2 with h3 | h3
        · exact Or.inl h3
        · right
          refine ⟨x, by simp, ?_⟩
          simpa using h3
    · right
      rcases h2 with ⟨y, hy, hit⟩
      exact ⟨y, by simp [hy], hit⟩

theorem pyDigitsGo_chars : ∀ (cs : List Char) (acc n : Nat), pyDigitsGo acc cs = some n →
    ∀ c ∈ cs, c.isDigit = true ∨ c = '_'
  | [], _, _, _, c, hc => by simp at hc
  | c0 :: rest, acc, n, h, c, hc => by
    cases rest with
    | nil =>
      simp only [pyDigitsGo] at h
      have hcc : c = c0 := by simpa using hc
      subst hcc
      by_cases h0 : c = '_'
      · right; exact h0
      · rw [if_neg h0] at h
        by_cases hd : c.isDigit = true
        · left; exact hd
        · rw [if_neg hd] at h
          exact Option.noConfusion h
    | cons d rest2 =>
      simp only [pyDigitsGo] at h
      by_cases h0 : c0 = '_'
      · rw [if_pos h0] at h
        by_cases hd : d.isDigit = true
        · rw [if_pos hd] at h
          rcases List.mem_cons.mp hc with h2 | h2
          · right; rw [h2]; exact h0
          · rcases List.mem_cons.mp h2 with h3 | h3
            · left; rw [h3]; exact hd
            · exact pyDigitsGo_chars rest2 _ n h c h3
        · rw [if_neg hd] at h
          exact Option.noConfusion h
      · rw [if_neg h0] at h
        by_cases hd : c0.isDigit = true
        · rw [if_pos hd] at h
          rcases List.mem_cons.mp hc with h2 | h2
          · left; rw [h2]; exact hd
          · exact pyDigitsGo_chars (d :: rest2) _ n h c h2
        · rw [if_neg hd] at h
          exact Option.noConfusion h

theorem pyDigits_chars (cs : List Char) (n : Nat) (h : pyDigits cs = some n) :
    ∀ c ∈ cs, c.isDigit = true ∨ c = '_' := by
  intro c hc
  cases cs with
  | nil => simp at hc
  | cons c2 rest =>
    simp only [pyDigits] at h
    by_cases hd : c2.isDigit = true
    · rw [if_pos hd] at h
      rcases List.mem_cons.mp hc with h2 | h2
      · left; rw [h2]; exact hd
      · exact pyDigitsGo_chars rest _ n h c h2
    · rw [if_neg hd] at h
      simp at h

theorem pyInt_chars (cs : List Char) (n : Int) (h : pyInt cs = some n) :
    ∀ c ∈ cs, c.isDigit = true ∨ c = '_' ∨ c = '+' ∨ c = '-' := by
  intro c hc
  cases cs with
  | nil => simp at hc
  | cons c2 rest =>
    simp only [pyInt] at h
    by_cases h1 : c2 = '+'
    · rw [if_pos h1] at h
      rcases List.mem_cons.mp hc with h2 | h2
      · right; right; left; rw [h2]; exact h1
      · cases hm : pyDigits rest with
        | none => rw [hm] at h; simp at h
        | some m =>
          rcases pyDigits_chars rest m hm c h2 with h3 | h3
          · left; exact h3
          · right; left; exact h3
    · rw [if_neg h1] at h
      by_cases h2 : c2 = '-'
      · rw [if_pos h2] at h
        rcases List.mem_cons.mp hc with h3 | h3
        · right; right; right; rw [h3]; exact h2
        · cases hm : pyDigits rest with
          | none => rw [hm] at h; simp at h
          | some m =>
            rcases pyDigits_chars rest m hm c h3 with h4 | h4
            · left; exact h4
            · right; left; exact h4
      · rw [if_neg h2] at h
        cases hm : pyDigits (c2 :: rest) with
        | none => rw [hm] at h; simp at h
        | some m =>
          rcases pyDigits_chars _ m hm c hc with h3 | h3
          · left; exact h3
          · right; left; exact h3

theorem contains_false_of_forall (cs : List Char) (c0 : Char)
    (h : ∀ c ∈ cs, c ≠ c0) : cs.contains c0 = false := by
  induction cs with
  | nil => rfl
  | cons c rest ih =>
    simp only [List.contains_cons, Bool.or_eq_false_iff]
    constructor
    · have := h c (by simp)
      simpa [beq_iff_eq] using fun h2 => this h2.symm
    · exact ih (fun c2 hc2 => h c2 (by simp [hc2]))

/-- The three keyword rules of `_parse_value` do not apply to the string. -/
def notKeyword (s : String) : Prop :=
  lowerS (trimS s) ≠ "true" ∧ lowerS (trimS s) ≠ "false" ∧ lowerS (trimS s) ≠ "null"

-- ## Claims

/-- C3: for every pair of mapping trees `base` and `updates` and every key
of `updates`: if both values at the key are mapping nodes, the merge at
that key is the merge of the two sub-mappings; otherwise the updates value
replaces the base value entirely (sequences included); every key of `base`
absent from `updates` keeps its base value; and merging an items key
holding the list 1,2,3 with one holding 4,5 yields the list 4,5 — full
replacement, no element-wise merging. -/
theorem claim3_deep_merge_per_key :
    (∀ (b u : Entries) (k : String) (cb cu : Bool) (eb eu : Entries),
       ndKeys u = true → alGet b k = some (.vdict cb eb) → alGet u k = some (.vdict cu eu) →
       alGet (deep_merge b u) k = some (.vdict cb (deep_merge eb eu)))
    ∧ (∀ (b u : Entries) (k : String) (vu : Value),
       ndKeys u = true → alGet u k = some vu → isBothDict (alGet b k) vu = false →
       alGet (deep_merge b u) k = some vu)
    ∧ (∀ (b u : Entries) (k : String),
       alGet u k = none → alGet (deep_merge b u) k = alGet b k)
    ∧ deep_merge (E [("items", .vlist (V [.vint 1, .vint 2, .vint 3]))])
        (E [("items", .vlist (V [.vint 4, .vint 5]))])
      = E [("items", .vlist (V [.vint 4, .vint 5]))] := by
  refine ⟨?_, ?_, ?_, rfl⟩
  · intro b u k cb cu eb eu hnd hb hu
    rw [alGet_deep_merge_present u b k _ hnd hu, hb]
    rfl
  · intro b u k vu hnd hu hboth
    rw [alGet_deep_merge_present u b k _ hnd hu, mergeVal_not_both _ _ hboth]
  · intro b u k h
    exact alGet_deep_merge_absent u b k h

/-- Witness for C3 at concrete inputs: nested merge, list replacement with
a non-dict base value, and base-key preservation. -/
theorem claim3_deep_merge_per_key_witness :
    alGet (deep_merge (E [("a", .vdict false (E [("x", .vint 1)])), ("z", .vint 9)])
        (E [("a", .vdict true (E [("y", .vint 2)]))])) "a"
      = some (.vdict false (deep_merge (E [("x", .vint 1)]) (E [("y", .vint 2)])))
    ∧ alGet (deep_merge (E [("items", .vlist (V [.vint 1]))])
        (E [("items", .vlist (V [.vint 4]))])) "items"
      = some (.vlist (V [.vint 4]))
    ∧ alGet (deep_merge (E [("a", .vdict false (E [("x", .vint 1)])), ("z", .vint 9)])
        (E [("a", .vdict true (E [("y", .vint 2)]))])) "z"
      = alGet (E [("a", .vdict false (E [("x", .vint 1)])), ("z", .vint 9)]) "z" :=
  ⟨claim3_deep_merge_per_key.1 _ _ "a" false true _ _ (by rfl) (by rfl) (by rfl),
   claim3_deep_merge_per_key.2.1 _ _ "items" _ (by rfl) (by rfl) (by rfl),
   claim3_deep_merge_per_key.2.2.1 _ _ "z" (by rfl)⟩

/-- C4 counterexample: the claim "mutating the returned merged tree does
not alter base or updates" fails — a `Config` object occurring as a
replaced value in `updates` is installed in the result by reference, not
deep-copied (`merged[key] = value_updates` in the source), so mutating
that subtree of the result mutates `updates`.  `dmShares` mirrors the
branch structure of `deep_merge` and returns `true` exactly when such a
by-reference installation happens; here it does. -/
theorem claim4_counterexample :
    dmShares Entries.nil (E [("a", .vdict true (E [("x", .vint 1)]))]) = true := rfl

/-- C4 amended: `deep_merge` never mutates `base` or `updates` during the
call, and the result shares no subtree with either argument — hence later
mutation of the result cannot alter them — provided no `Config` object
occurs in `updates`; `Config` values in `updates` are the sole exception,
being installed by reference. -/
theorem claim4_no_sharing_without_config :
    ∀ (b u : Entries), noConfigEnt u = true → dmShares b u = false :=
  fun b u h => dmShares_noConfig u b h

/-- Witness for the amended C4 on a plain-dict update tree. -/
theorem claim4_no_sharing_without_config_witness :
    noConfigEnt (E [("a", .vdict false (E [("x", .vint 1)])), ("y", .vlist (V [.vint 2]))]) = true
    ∧ dmShares (E [("a", .vint 5)])
        (E [("a", .vdict false (E [("x", .vint 1)])), ("y", .vlist (V [.vint 2]))]) = false :=
  ⟨rfl, claim4_no_sharing_without_config _ _ rfl⟩

/-- C7: an overlay dot-path with no remap target never raises and gets
exactly one of the three documented fallback keys: the dot form as-is for
an empty prefix; the dot form as-is when a dotenv load was requested; the
underscore-collapsed flat key for a non-empty prefix without dotenv.
Every entry the remapper emits carries either a remap target or such a
fallback of some overlay leaf item. -/
theorem claim7_remap_fallbacks :
    (∀ (vk : List String) (base : Entries) (ld : Bool) (dk : String),
       remapTarget vk base dk = none →
       finalKeyFor vk base (some "") ld dk = dk)
    ∧ (∀ (vk : List String) (base : Entries) (px : Option String) (dk : String),
       remapTarget vk base dk = none →
       finalKeyFor vk base px true dk = dk)
    ∧ (∀ (vk : List String) (base : Entries) (p : String) (dk : String),
       remapTarget vk base dk = none → p ≠ "" →
       finalKeyFor vk base (some p) false dk = replaceC '.' '_' dk)
    ∧ (∀ (nested d f : Entries) (px : Option String) (ld : Bool)
         (it : String × Value),
       it ∈ remap_and_flatten_env_data nested d f px ld →
       ∃ dk, (dk, it.2) ∈ flatItems "" nested ∧
         it.1 = finalKeyFor (flatten_keys "" (deep_merge d f)) (deep_merge d f) px ld dk) := by
  refine ⟨?_, ?_, ?_, ?_⟩
  · intro vk base ld dk h
    simp [finalKeyFor, h, fallbackKey]
  · intro vk base px dk h
    by_cases hpx : px = some ""
    · simp [finalKeyFor, h, fallbackKey, hpx]
    · simp [finalKeyFor, h, fallbackKey, hpx]
  · intro vk base p dk h hp
    have hne : ¬ (some p = some "") := by simpa using hp
    simp [finalKeyFor, h, fallbackKey, hne]
  · intro nested d f px ld it hmem
    have h2 := mem_addIfAbsent_fold
      (fun x => finalKeyFor (flatten_keys "" (deep_merge d f)) (deep_merge d f) px ld x.1)
      (stableSort (fun a b => decide (countC '.' b.1 ≤ countC '.' a.1)) (flatItems "" nested))
      [] it hmem
    rcases h2 with h3 | ⟨x, hx, hit⟩
    · simp at h3
    · refine ⟨x.1, ?_, ?_⟩
      · have hxi := mem_stableSort _ _ _ hx
        rw [hit]
        simpa using hxi
      · rw [hit]

/-- Witness for C7: the path `a.b` finds no remap target against an empty
known structure; the three fallbacks at that input. -/
theorem claim7_remap_fallbacks_witness :
    remapTarget [] Entries.nil "a.b" = none
    ∧ finalKeyFor [] Entries.nil (some "") false "a.b" = "a.b"
    ∧ finalKeyFor [] Entries.nil (some "APP") true "a.b" = "a.b"
    ∧ finalKeyFor [] Entries.nil (some "APP") false "a.b" = replaceC '.' '_' "a.b" :=
  ⟨rfl,
   claim7_remap_fallbacks.1 [] Entries.nil false "a.b" rfl,
   claim7_remap_fallbacks.2.1 [] Entries.nil (some "APP") "a.b" rfl,
   claim7_remap_fallbacks.2.2.1 [] Entries.nil "APP" "a.b" rfl (by decide)⟩

/-- C8: the value parser applies its rules in order with first match
winning — non-string input passes through; trimmed case-insensitive
`true` / `false` / `null` become the boolean or null value; then integer
syntax (which admits no decimal point and no exponent character); then
float syntax; then a JSON decode is attempted exactly under the
delimiter gate, falling through to the original untrimmed string on
decode failure; otherwise the original untrimmed string is returned.
Totality of `parse_value` is the no-raise guarantee. -/
theorem claim8_parse_value_rules :
    (∀ (jdec : String → Option Value) (v : Value), (∀ s, v ≠ .vstr s) → parse_value jdec v = v)
    ∧ (∀ (jdec : String → Option Value) (s : String),
       lowerS (trimS s) = "true" → parse_value jdec (.vstr s) = .vbool true)
    ∧ (∀ (jdec : String → Option Value) (s : String),
       lowerS (trimS s) = "false" → parse_value jdec (.vstr s) = .vbool false)
    ∧ (∀ (jdec : String → Option Value) (s : String),
       lowerS (trimS s) = "null" → parse_value jdec (.vstr s) = .vnull)
    ∧ (∀ (jdec : String → Option Value) (s : String) (n : Int),
       notKeyword s → pyInt (trimS s).data = some n →
       parse_value jdec (.vstr s) = .vint n)
    ∧ (∀ (cs : List Char) (n : Int), pyInt cs = some n →
       cs.contains '.' = false ∧ cs.contains 'e' = false ∧ cs.contains 'E' = false)
    ∧ (∀ (jdec : String → Option Value) (s : String),
       notKeyword s → pyInt (trimS s).data = none → pyFloatShape (trimS s).data = true →
       parse_value jdec (.vstr s) = .vfloat (trimS s))
    ∧ (∀ (jdec : String → Option Value) (s : String) (v2 : Value),
       notKeyword s → pyInt (trimS s).data = none → pyFloatShape (trimS s).data = false →
       jsonGate (trimS s).data = true → jdec (trimS s) = some v2 →
       parse_value jdec (.vstr s) = v2)
    ∧ (∀ (jdec : String → Option Value) (s : String),
       notKeyword s → pyInt (trimS s).data = none → pyFloatShape (trimS s).data = false →
       jsonGate (trimS s).data = true → jdec (trimS s) = none →
       parse_value jdec (.vstr s) = .vstr s)
    ∧ (∀ (jdec : String → Option Value) (s : String),
       notKeyword s → pyInt (trimS s).data = none → pyFloatShape (trimS s).data = false →
       jsonGate (trimS s).data = false →
       parse_value jdec (.vstr s) = .vstr s) := by
  refine ⟨?_, ?_, ?_, ?_, ?_, ?_, ?_, ?_, ?_, ?_⟩
  · intro jdec v h
    cases v with
    | vstr s => exact absurd rfl (h s)
    | vint n => rfl
    | vfloat s => rfl
    | vbool b => rfl
    | vnull => rfl
    | vlist xs => rfl
    | vdict c es => rfl
  · intro jdec s h
    simp [parse_value, h]
  · intro jdec s h
    have hne : lowerS (trimS s) ≠ "true" := by rw [h]; decide
    simp [parse_value, h, hne]
  · intro jdec s h
    have h1 : lowerS (trimS s) ≠ "true" := by rw [h]; decide
    have h2 : lowerS (trimS s) ≠ "false" := by rw [h]; decide
    simp [parse_value, h, h1, h2]
  · intro jdec s n hkw hint
    simp [parse_value, hkw.1, hkw.2.1, hkw.2.2, hint]
  · intro cs n h
    have hall := pyInt_chars cs n h
    refine ⟨?_, ?_, ?_⟩ <;>
      (apply contains_false_of_forall
       intro c hc
       rcases hall c hc with h2 | h2 | h2 | h2 <;> (intro hEq; subst hEq; revert h2; decide))
  · intro jdec s hkw hint hfl
    simp [parse_value, hkw.1, hkw.2.1, hkw.2.2, hint, hfl]
  · intro jdec s v2 hkw hint hfl hg hj
    simp [parse_value, hkw.1, hkw.2.1, hkw.2.2, hint, hfl, hg, hj]
  · intro jdec s hkw hint hfl hg hj
    simp [parse_value, hkw.1, hkw.2.1, hkw.2.2, hint, hfl, hg, hj]
  · intro jdec s hkw hint hfl hg
    simp [parse_value, hkw.1, hkw.2.1, hkw.2.2, hint, hfl, hg]

/-- Witness for C8 at concrete inputs exercising each rule. -/
theorem claim8_parse_value_rules_witness :
    parse_value (fun _ => none) (.vint 3) = .vint 3
    ∧ parse_value (fun _ => none) (.vstr " TRUE ") = .vbool true
    ∧ parse_value (fun _ => none) (.vstr "False") = .vbool false
    ∧ parse_value (fun _ => none) (.vstr "NULL") = .vnull
    ∧ parse_value (fun _ => none) (.vstr " 6_000 ") = .vint 6000
    ∧ ("6_000".data.contains '.' = false ∧ "6_000".data.contains 'e' = false
        ∧ "6_000".data.contains 'E' = false)
    ∧ parse_value (fun _ => none) (.vstr "12.5e3") = .vfloat "12.5e3"
    ∧ parse_value (fun _ => some (.vnull)) (.vstr "[1]") = .vnull
    ∧ parse_value (fun _ => none) (.vstr "[1,2]") = .vstr "[1,2]"
    ∧ parse_value (fun _ => none) (.vstr "hello") = .vstr "hello" :=
  ⟨claim8_parse_value_rules.1 _ _ (fun s => by simp),
   claim8_parse_value_rules.2.1 _ _ (by decide),
   claim8_parse_value_rules.2.2.1 _ _ (by decide),
   claim8_parse_value_rules.2.2.2.1 _ _ (by decide),
   claim8_parse_value_rules.2.2.2.2.1 _ _ 6000 (by refine ⟨?_, ?_, ?_⟩ <;> decide) (by rfl),
   claim8_parse_value_rules.2.2.2.2.2.1 "6_000".data 6000 (by rfl),
   claim8_parse_value_rules.2.2.2.2.2.2.1 _ _ (by refine ⟨?_, ?_, ?_⟩ <;> decide) (by rfl) (by rfl),
   claim8_parse_value_rules.2.2.2.2.2.2.2.1 _ _ _ (by refine ⟨?_, ?_, ?_⟩ <;> decide) (by rfl)
     (by rfl) (by rfl) (by rfl),
   claim8_parse_value_rules.2.2.2.2.2.2.2.2.1 _ _ (by refine ⟨?_, ?_, ?_⟩ <;> decide) (by rfl)
     (by rfl) (by rfl) (by rfl),
   claim8_parse_value_rules.2.2.2.2.2.2.2.2.2 _ _ (by refine ⟨?_, ?_, ?_⟩ <;> decide) (by rfl)
     (by rfl) (by rfl)⟩

-- ## Provenance lemmas and claims C5, C6

theorem pFindE_pSetEntry_self (es : List (String × PEntry)) (k : String) (e : PEntry) :
    pFindE (pSetEntry es k e) k = some e := by
  induction es with
  | nil => simp [pSetEntry, pFindE]
  | cons p rest ih =>
    by_cases h : p.1 = k
    · simp [pSetEntry, pFindE, h]
    · simp only [pSetEntry]
      rw [if_neg h]
      simp only [pFindE]
      rw [if_neg h]
      exact ih

theorem pFindE_pSetEntry_ne (es : List (String × PEntry)) (k k2 : String) (e : PEntry)
    (h : k ≠ k2) : pFindE (pSetEntry es k e) k2 = pFindE es k2 := by
  induction es with
  | nil => simp [pSetEntry, pFindE, h]
  | cons p rest ih =>
    by_cases h3 : p.1 = k
    · simp only [pSetEntry]
      rw [if_pos h3]
      simp only [pFindE]
      rw [h3, if_neg h, if_neg h]
    · simp only [pSetEntry]
      rw [if_neg h3]
      simp only [pFindE]
      by_cases h4 : p.1 = k2
      · rw [if_pos h4, if_pos h4]
      · rw [if_neg h4, if_neg h4]
        exact ih

theorem pFindH_pSetHist_self (hs : List (String × List PEntry)) (k : String) (l : List PEntry) :
    pFindH (pSetHist hs k l) k = some l := by
  induction hs with
  | nil => simp [pSetHist, pFindH]
  | cons p rest ih =>
    by_cases h : p.1 = k
    · simp [pSetHist, pFindH, h]
    · simp only [pSetHist]
      rw [if_neg h]
      simp only [pFindH]
      rw [if_neg h]
      exact ih

theorem pFindH_pSetHist_ne (hs : List (String × List PEntry)) (k k2 : String) (l : List PEntry)
    (h : k ≠ k2) : pFindH (pSetHist hs k l) k2 = pFindH hs k2 := by
  induction hs with
  | nil => simp [pSetHist, pFindH, h]
  | cons p rest ih =>
    by_cases h3 : p.1 = k
    · simp only [pSetHist]
      rw [if_pos h3]
      simp only [pFindH]
      rw [h3, if_neg h, if_neg h]
    · simp only [pSetHist]
      rw [if_neg h3]
      simp only [pFindH]
      by_cases h4 : p.1 = k2
      · rw [if_pos h4, if_pos h4]
      · rw [if_neg h4, if_neg h4]
        exact ih

theorem record_hist (st : PStore) (k : String) (v : Value) (src : String) :
    get_history (record st k v src) k = get_history st k ++ [⟨v, src, k⟩] := by
  unfold record get_history
  cases hc : pGetEntry st k with
  | some old =>
    simp only [pGetEntry] at hc
    simp only [pGetEntry, pGetHist, pFindE_pSetEntry_self, pFindH_pSetHist_self,
      Option.getD_some, hc]
  | none =>
    simp only [pGetEntry] at hc
    simp only [pGetEntry, pFindE_pSetEntry_self, hc]

theorem record_frame (st : PStore) (k k2 : String) (v : Value) (src : String) (h : k ≠ k2) :
    get_history (record st k v src) k2 = get_history st k2 := by
  unfold record get_history
  cases hc : pGetEntry st k with
  | some old =>
    simp only [pGetEntry, pGetHist, pFindE_pSetEntry_ne _ _ _ _ h, pFindH_pSetHist_ne _ _ _ _ h]
  | none =>
    simp only [pGetEntry, pGetHist, pFindE_pSetEntry_ne _ _ _ _ h]

theorem recordSeq_hist : ∀ (items : List (Value × String)) (st : PStore) (k : String),
    get_history (recordSeq st k items) k
      = get_history st k ++ items.map (fun it => PEntry.mk it.1 it.2 k)
  | [], st, k => by simp [recordSeq]
  | (v, src) :: rest, st, k => by
    simp only [recordSeq]
    rw [recordSeq_hist rest (record st k v src) k, record_hist]
    simp

/-- C5: the provenance ledger's `record` is append-only — the previous
current entry (when one exists) moves to the key's history and the new
entry becomes current, nothing is deleted; `get_history` after N
successive `record` calls for a key returns exactly those N entries in
insertion order; `record` of one key does not disturb another key's
history; the last element of a recorded key's history is its current
entry; and the history of a never-recorded key is empty. -/
theorem claim5_provenance_append_only :
    (∀ (st : PStore) (k : String) (v : Value) (src : String),
       get_history (record st k v src) k = get_history st k ++ [⟨v, src, k⟩])
    ∧ (∀ (st : PStore) (k : String) (items : List (Value × String)),
       get_history (recordSeq st k items) k
         = get_history st k ++ items.map (fun it => PEntry.mk it.1 it.2 k))
    ∧ (∀ (st : PStore) (k k2 : String) (v : Value) (src : String), k ≠ k2 →
       get_history (record st k v src) k2 = get_history st k2)
    ∧ (∀ (st : PStore) (k : String) (v : Value) (src : String),
       pGet (record st k v src) k = some ⟨v, src, k⟩)
    ∧ (∀ (st : PStore) (k : String) (e : PEntry),
       pGet st k = some e → (get_history st k).getLast? = some e)
    ∧ (∀ k : String, get_history emptyStore k = []) := by
  refine ⟨record_hist, fun st k items => recordSeq_hist items st k, record_frame, ?_, ?_, ?_⟩
  · intro st k v src
    unfold record pGet
    cases hc : pGetEntry st k with
    | some old => simp only [hc, pGetEntry, pFindE_pSetEntry_self]
    | none => simp only [hc, pGetEntry, pFindE_pSetEntry_self]
  · intro st k e h
    unfold get_history
    simp only [pGet] at h
    rw [h]
    exact List.getLast?_concat _
  · intro k
    rfl

/-- Witness for C5: two records of `db.host`, one of another key. -/
theorem claim5_provenance_append_only_witness :
    get_history (recordSeq emptyStore "db.host"
        [(.vstr "a", "defaults"), (.vstr "b", "env")]) "db.host"
      = [⟨.vstr "a", "defaults", "db.host"⟩, ⟨.vstr "b", "env", "db.host"⟩]
    ∧ get_history (record emptyStore "db.port" (.vint 1) "defaults") "db.host" = []
    ∧ (get_history (record emptyStore "db.host" (.vstr "a") "defaults") "db.host").getLast?
      = some ⟨.vstr "a", "defaults", "db.host"⟩ := by
  refine ⟨?_, ?_, ?_⟩
  · rw [claim5_provenance_append_only.2.1 emptyStore "db.host"
      [(.vstr "a", "defaults"), (.vstr "b", "env")]]
    rfl
  · exact claim5_provenance_append_only.2.2.1 emptyStore "db.port" "db.host" (.vint 1)
      "defaults" (by decide)
  · exact claim5_provenance_append_only.2.2.2.2.1 _ "db.host" _
      (claim5_provenance_append_only.2.2.2.1 emptyStore "db.host" (.vstr "a") "defaults")

/-- C6: mandatory validation checks every supplied dot-path against the
final tree, collects all failing paths in order with no fail-fast, raises
`MissingMandatoryConfig` carrying exactly that complete list, and raises
nothing when every path resolves; for mandatory `a.b`, `x.y` where only
`a.b` resolves, the exception names exactly `x.y`. -/
theorem claim6_mandatory_validation :
    (∀ (tree : Value) (keys : List String),
       (∀ k ∈ keys, exOk (get_by_dot tree (splitOnDot k)) = true) →
       validate_mandatory tree keys = none)
    ∧ (∀ (tree : Value) (keys missing : List String),
       validate_mandatory tree keys = some missing →
       missing = keys.filter (fun k => !(exOk (get_by_dot tree (splitOnDot k)))) ∧ missing ≠ [])
    ∧ (∀ (tree : Value) (keys : List String) (k : String),
       validate_mandatory tree keys = none → k ∈ keys →
       exOk (get_by_dot tree (splitOnDot k)) = true)
    ∧ validate_mandatory
        (.vdict false (E [("a", .vdict false (E [("b", .vint 1)]))]))
        ["a.b", "x.y"] = some ["x.y"] := by
  refine ⟨?_, ?_, ?_, rfl⟩
  · intro tree keys h
    unfold validate_mandatory
    have hf : keys.filter (fun k => !(exOk (get_by_dot tree (splitOnDot k)))) = [] := by
      rw [List.filter_eq_nil_iff]
      intro k hk
      simp [h k hk]
    rw [hf]
    rfl
  · intro tree keys missing h
    unfold validate_mandatory at h
    by_cases he : (keys.filter (fun k => !(exOk (get_by_dot tree (splitOnDot k))))).isEmpty = true
    · rw [if_pos he] at h
      exact absurd h (by simp)
    · rw [if_neg he] at h
      constructor
      · exact (Option.some_inj.mp h).symm
      · intro hm
        apply he
        rw [Option.some_inj.mp h, hm]
        rfl
  · intro tree keys k h hk
    unfold validate_mandatory at h
    by_cases he : (keys.filter (fun k2 => !(exOk (get_by_dot tree (splitOnDot k2))))).isEmpty = true
    · have hf : keys.filter (fun k2 => !(exOk (get_by_dot tree (splitOnDot k2)))) = [] := by
        simpa using he
      rw [List.filter_eq_nil_iff] at hf
      have := hf k hk
      simpa using this
    · rw [if_neg he] at h
      exact absurd h (by simp)

/-- Witness for C6 on a one-key mandatory list that resolves and a
validated lookup extracted from a passing validation. -/
theorem claim6_mandatory_validation_witness :
    validate_mandatory (.vdict false (E [("a", .vdict false (E [("b", .vint 1)]))])) ["a.b"] = none
    ∧ (["x.y"] = (["a.b", "x.y"] : List String).filter
        (fun k => !(exOk (get_by_dot (.vdict false (E [("a", .vdict false (E [("b", .vint 1)]))]))
          (splitOnDot k)))) ∧ (["x.y"] : List String) ≠ [])
    ∧ exOk (get_by_dot (.vdict false (E [("a", .vdict false (E [("b", .vint 1)]))]))
        (splitOnDot "a.b")) = true := by
  refine ⟨?_, ?_, ?_⟩
  · apply claim6_mandatory_validation.1
    intro k hk
    rw [List.mem_singleton] at hk
    subst hk
    rfl
  · exact claim6_mandatory_validation.2.1 _ ["a.b", "x.y"] ["x.y"] (by rfl)
  · exact claim6_mandatory_validation.2.2.1 _ ["a.b"] "a.b" (by rfl) (by simp)

-- ## Claims C9

theorem errKind_map (f : α → β) (e : Except PErr α) : errKind (e.map f) = errKind e := by
  cases e <;> rfl

theorem setGo_create_install : ∀ (parts : List String) (c : Bool) (es : Entries) (v : Value),
    parts ≠ [] →
    ∃ c2 es2, setGo c es parts v true = .ok (c2, es2) ∧
      ∃ w, get_by_dot (.vdict c2 es2) parts = .ok w ∧ (w = v ∨ w = wrapAll v)
  | [], _, _, _, h => absurd rfl h
  | [fin], c, es, v, _ => by
    refine ⟨c, alSet es fin (wrapFinal c v), by rfl, wrapFinal c v, ?_, ?_⟩
    · simp only [get_by_dot, alGet_alSet_self]
    · unfold wrapFinal
      cases c with
      | false => left; rfl
      | true =>
        cases v with
        | vdict cf es2 =>
          cases cf with
          | false => right; rfl
          | true => left; rfl
        | vstr s => left; rfl
        | vint n => left; rfl
        | vfloat s => left; rfl
        | vbool b => left; rfl
        | vnull => left; rfl
        | vlist xs => left; rfl
  | p :: q :: qs, c, es, v, _ => by
    rcases setGo_create_install (q :: qs) c Entries.nil v (by simp) with ⟨c2, es2, hset, w, hget, hw⟩
    cases hb : alGet es p with
    | none =>
      refine ⟨c, alSet es p (.vdict c2 es2), ?_, w, ?_, hw⟩
      · simp only [setGo, hb, if_pos, hset]
        rfl
      · simp only [get_by_dot, alGet_alSet_self]
        exact hget
    | some vb =>
      cases vb with
      | vdict c3 es3 =>
        rcases setGo_create_install (q :: qs) c3 es3 v (by simp) with ⟨c4, es4, hset4, w4, hget4, hw4⟩
        refine ⟨c, alSet es p (.vdict c4 es4), ?_, w4, ?_, hw4⟩
        · simp only [setGo, hb, hset4]
          rfl
        · simp only [get_by_dot, alGet_alSet_self]
          exact hget4
      | vstr s =>
        refine ⟨c, alSet es p (.vdict c2 es2), ?_, w, ?_, hw⟩
        · simp only [setGo, hb, hset]
          rfl
        · simp only [get_by_dot, alGet_alSet_self]
          exact hget
      | vint n =>
        refine ⟨c, alSet es p (.vdict c2 es2), ?_, w, ?_, hw⟩
        · simp only [setGo, hb, hset]
          rfl
        · simp only [get_by_dot, alGet_alSet_self]
          exact hget
      | vfloat s =>
        refine ⟨c, alSet es p (.vdict c2 es2), ?_, w, ?_, hw⟩
        · simp only [setGo, hb, hset]
          rfl
        · simp only [get_by_dot, alGet_alSet_self]
          exact hget
      | vbool b2 =>
        refine ⟨c, alSet es p (.vdict c2 es2), ?_, w, ?_, hw⟩
        · simp only [setGo, hb, hset]
          rfl
        · simp only [get_by_dot, alGet_alSet_self]
          exact hget
      | vnull =>
        refine ⟨c, alSet es p (.vdict c2 es2), ?_, w, ?_, hw⟩
        · simp only [setGo, hb, hset]
          rfl
        · simp only [get_by_dot, alGet_alSet_self]
          exact hget
      | vlist xs =>
        refine ⟨c, alSet es p (.vdict c2 es2), ?_, w, ?_, hw⟩
        · simp only [setGo, hb, hset]
          rfl
        · simp only [get_by_dot, alGet_alSet_self]
          exact hget

theorem setGo_get_errKind : ∀ (parts : List String) (c : Bool) (es : Entries) (v : Value),
    errKind (setGo c es parts v false) = errKind (get_by_dot (.vdict c es) parts)
  | [], _, _, _ => rfl
  | [fin], c, es, v => by
    simp only [setGo, get_by_dot]
    cases hb : alGet es fin with
    | none => rfl
    | some w => rfl
  | p :: q :: qs, c, es, v => by
    simp only [setGo, get_by_dot]
    cases hb : alGet es p with
    | none => rfl
    | some vb =>
      cases vb with
      | vdict c2 es2 =>
        rw [errKind_map]
        exact setGo_get_errKind (q :: qs) c2 es2 v
      | vstr s => rfl
      | vint n => rfl
      | vfloat s => rfl
      | vbool b2 => rfl
      | vnull => rfl
      | vlist xs => rfl

/-- C9: with `create_missing` true, `set_by_dot` installs the value at the
final segment, creating each absent intermediate segment as a fresh empty
mapping and overwriting a non-mapping intermediate value with a fresh
empty mapping before descending (the equations), and always succeeds, the
installed value readable back at the path (up to `Config` wrapping of a
plain dict value inside a `Config`); with `create_missing` false it fails
with exactly the same error kinds as `get_by_dot` — `KeyError` for an
absent segment, the final one included, and `TypeError` for a non-mapping
intermediate — succeeding exactly when the lookup does. -/
theorem claim9_set_by_dot :
    (∀ (c : Bool) (es : Entries) (fin : String) (v : Value),
       setGo c es [fin] v true = .ok (c, alSet es fin (wrapFinal c v)))
    ∧ (∀ (c : Bool) (es : Entries) (p : String) (rest : List String) (v : Value),
       rest ≠ [] → alGet es p = none →
       setGo c es (p :: rest) v true
         = (setGo c .nil rest v true).map (fun r => (c, alSet es p (.vdict r.1 r.2))))
    ∧ (∀ (c : Bool) (es : Entries) (p : String) (rest : List String) (v w : Value),
       rest ≠ [] → alGet es p = some w → isDictV w = false →
       setGo c es (p :: rest) v true
         = (setGo c .nil rest v true).map (fun r => (c, alSet es p (.vdict r.1 r.2))))
    ∧ (∀ (parts : List String) (c : Bool) (es : Entries) (v : Value), parts ≠ [] →
       ∃ c2 es2, setGo c es parts v true = .ok (c2, es2) ∧
         ∃ w, get_by_dot (.vdict c2 es2) parts = .ok w ∧ (w = v ∨ w = wrapAll v))
    ∧ (∀ (parts : List String) (c : Bool) (es : Entries) (v : Value),
       errKind (setGo c es parts v false) = errKind (get_by_dot (.vdict c es) parts)) := by
  refine ⟨?_, ?_, ?_, setGo_create_install, setGo_get_errKind⟩
  · intro c es fin v
    rfl
  · intro c es p rest v hrest hb
    cases rest with
    | nil => exact absurd rfl hrest
    | cons q qs =>
      simp only [setGo, hb]
      rfl
  · intro c es p rest v w hrest hb hnd
    cases rest with
    | nil => exact absurd rfl hrest
    | cons q qs =>
      cases w with
      | vdict c2 es2 => simp [isDictV] at hnd
      | vstr s => simp only [setGo, hb]; rfl
      | vint n => simp only [setGo, hb]; rfl
      | vfloat s => simp only [setGo, hb]; rfl
      | vbool b2 => simp only [setGo, hb]; rfl
      | vnull => simp only [setGo, hb]; rfl
      | vlist xs => simp only [setGo, hb]; rfl

/-- Witness for C9: creation through an absent segment and over a
non-mapping value, installation, and matching error kinds on failures. -/
theorem claim9_set_by_dot_witness :
    setGo false (E [("a", .vint 1)]) ["b"] (.vint 7) true
      = .ok (false, alSet (E [("a", .vint 1)]) "b" (wrapFinal false (.vint 7)))
    ∧ setGo false (E [("a", .vint 1)]) ["x", "y"] (.vint 7) true
      = (setGo false .nil ["y"] (.vint 7) true).map
          (fun r => (false, alSet (E [("a", .vint 1)]) "x" (.vdict r.1 r.2)))
    ∧ setGo false (E [("a", .vint 1)]) ["a", "y"] (.vint 7) true
      = (setGo false .nil ["y"] (.vint 7) true).map
          (fun r => (false, alSet (E [("a", .vint 1)]) "a" (.vdict r.1 r.2)))
    ∧ (∃ c2 es2, setGo false (E [("a", .vint 1)]) ["x", "y"] (.vint 7) true = .ok (c2, es2) ∧
        ∃ w, get_by_dot (.vdict c2 es2) ["x", "y"] = .ok w ∧ (w = .vint 7 ∨ w = wrapAll (.vint 7)))
    ∧ errKind (setGo false (E [("a", .vint 1)]) ["x", "y"] (.vint 7) false)
      = errKind (get_by_dot (.vdict false (E [("a", .vint 1)])) ["x", "y"]) :=
  ⟨claim9_set_by_dot.1 false _ "b" (.vint 7),
   claim9_set_by_dot.2.1 false _ "x" ["y"] (.vint 7) (by simp) (by rfl),
   claim9_set_by_dot.2.2.1 false _ "a" ["y"] (.vint 7) (.vint 1) (by simp) (by rfl) (by rfl),
   claim9_set_by_dot.2.2.2.1 ["x", "y"] false _ (.vint 7) (by simp),
   claim9_set_by_dot.2.2.2.2 ["x", "y"] false _ (.vint 7)⟩

-- ## Claims C1 and C2

/-- The C1 scenario defaults: db.host = localhost, db.port = 5432. -/
def c1Defaults : Entries :=
  E [("db", .vdict false (E [("host", .vstr "localhost"), ("port", .vint 5432)]))]

/-- The C1 scenario file data: db.host = file.example.com. -/
def c1File : Entries :=
  E [("db", .vdict false (E [("host", .vstr "file.example.com")]))]

/-- C1 (amended): constructing a `Config` folds `deep_merge` over the
five source layers in the fixed order defaults, initial data, file,
environment overlay, explicit overrides; a leaf value defined at a
dot-path by one layer is the final value provided every higher-precedence
layer preserves that path — in particular does not define it and does not
replace an ancestor segment with a non-mapping value; and in the concrete
scenario — defaults db.host=localhost, db.port=5432, file
db.host=file.example.com, env var PREFIX_DB_PORT=6000 under prefix
PREFIX — the final tree has db.host = "file.example.com" and db.port =
the integer 6000. -/
theorem claim1_precedence :
    (∀ (jdec : String → Option Value) (d i f : Entries) (env : List (String × String))
       (px : Option String) (ld : Bool) (ov : List (String × Value)),
       config_final jdec d i f env px ld ov =
         mergeLayers d [i, f, envLayer jdec d f env px ld, structure_overrides jdec ov])
    ∧ (∀ (first : Entries) (pre : List Entries) (L : Entries) (post : List Entries)
       (cb cL : Bool) (p : List String) (v : Value),
       entriesWF L = true →
       get_by_dot (.vdict cL L) p = .ok v → isDictV v = false →
       (∀ M ∈ post, entriesWF M = true ∧ preservesPath M p = true) →
       get_by_dot (.vdict cb (mergeLayers first (pre ++ L :: post))) p = .ok v)
    ∧ (∀ (first : Entries) (rest : List Entries) (cb cf : Bool) (p : List String) (v : Value),
       get_by_dot (.vdict cf first) p = .ok v → isDictV v = false →
       (∀ M ∈ rest, entriesWF M = true ∧ preservesPath M p = true) →
       get_by_dot (.vdict cb (mergeLayers first rest)) p = .ok v)
    ∧ (∀ jdec : String → Option Value,
       get_by_dot (config_tree jdec c1Defaults .nil c1File [("PREFIX_DB_PORT", "6000")]
           (some "PREFIX") true []) ["db", "host"] = .ok (.vstr "file.example.com")
       ∧ get_by_dot (config_tree jdec c1Defaults .nil c1File [("PREFIX_DB_PORT", "6000")]
           (some "PREFIX") true []) ["db", "port"] = .ok (.vint 6000)) :=
  ⟨config_final_eq,
   fun first pre L post cb cL p v h1 h2 h3 h4 =>
     mergeLayers_prec first pre L post cb cL p v h1 h2 h3 h4,
   fun first rest cb cf p v h1 h2 h3 => mergeLayers_first first rest cb cf p v h1 h2 h3,
   fun _ => ⟨rfl, rfl⟩⟩

/-- Witness for C1: a three-layer fold where the middle layer wins over
the first and is preserved by the last, and a first-layer value preserved
throughout. -/
theorem claim1_precedence_witness :
    get_by_dot (.vdict false (mergeLayers (E [("a", .vint 1)])
        ([E [("c", .vint 5)]] ++ (E [("a", .vint 2)]) :: [E [("b", .vint 3)]]))) ["a"]
      = .ok (.vint 2)
    ∧ get_by_dot (.vdict false (mergeLayers (E [("a", .vint 1)]) [E [("b", .vint 3)]])) ["a"]
      = .ok (.vint 1) :=
  ⟨claim1_precedence.2.1 (E [("a", .vint 1)]) [E [("c", .vint 5)]] (E [("a", .vint 2)])
     [E [("b", .vint 3)]] false false ["a"] (.vint 2) (by rfl) (by rfl) (by rfl)
     (by intro M hM; rw [List.mem_singleton] at hM; subst hM; exact ⟨rfl, rfl⟩),
   claim1_precedence.2.2.1 (E [("a", .vint 1)]) [E [("b", .vint 3)]] false false ["a"]
     (.vint 1) (by rfl) (by rfl)
     (by intro M hM; rw [List.mem_singleton] at hM; subst hM; exact ⟨rfl, rfl⟩)⟩


/-- C1 counterexample: the unqualified precedence sentence fails — here
the key a.b is defined by the two lowest layers (highest defining layer
gives 2), but a higher-precedence layer that defines only `a` (as a
scalar) destroys the whole subtree, so the final tree does not assign a.b
the value 2; the lookup fails instead of returning the highest defining
layer's value. -/
theorem claim1_counterexample :
    get_by_dot (.vdict false (mergeLayers (E [("a", .vdict false (E [("b", .vint 1)]))])
        [E [("a", .vdict false (E [("b", .vint 2)]))], E [("a", .vint 5)]])) ["a", "b"]
      = .error .typeErr
    ∧ get_by_dot (.vdict false (mergeLayers (E [("a", .vdict false (E [("b", .vint 1)]))])
        [E [("a", .vdict false (E [("b", .vint 2)]))], E [("a", .vint 5)]])) ["a", "b"]
      ≠ .ok (.vint 2) :=
  ⟨rfl, fun h => Except.noConfusion h⟩

/-- The C2 scenario known structure: a feature_flags mapping. -/
def c2Defaults : Entries :=
  E [("feature_flags", .vdict false (E [("beta_feature", .vbool false)]))]

/-- C2 (evaluation of the code at the failing input): the claim — and the
loader docstring, its heuristic-0 comments and the repo test suite — says
APP_FEATURE_FLAGS__BETA_FEATURE=true under prefix APP with a known
feature_flags mapping resolves to feature_flags.beta_feature = true.  The
code instead collects the variable as the dot path
feature.flags_beta.feature; heuristic 0 re-splits the reconstructed flat
key feature_flags_beta_feature at its FIRST underscore, yielding the
candidate feature.flags_beta_feature, never feature_flags.beta_feature,
so no remap target is found, the dotenv fallback keeps the dot form, and
the final tree leaves feature_flags.beta_feature at its default false
while installing the override at feature.flags_beta.feature. -/
theorem claim2_env_remap_code_eval :
    ∀ jdec : String → Option Value,
      collect_env_vars jdec [("APP_FEATURE_FLAGS__BETA_FEATURE", "true")] (some "APP")
        = E [("feature", .vdict false
            (E [("flags_beta", .vdict false (E [("feature", .vbool true)]))]))]
      ∧ remap_and_flatten_env_data
          (E [("feature", .vdict false
            (E [("flags_beta", .vdict false (E [("feature", .vbool true)]))]))])
          c2Defaults .nil (some "APP") true
        = [("feature.flags_beta.feature", .vbool true)]
      ∧ get_by_dot (config_tree jdec c2Defaults .nil .nil
          [("APP_FEATURE_FLAGS__BETA_FEATURE", "true")] (some "APP") true [])
          ["feature_flags", "beta_feature"] = .ok (.vbool false)
      ∧ get_by_dot (config_tree jdec c2Defaults .nil .nil
          [("APP_FEATURE_FLAGS__BETA_FEATURE", "true")] (some "APP") true [])
          ["feature", "flags_beta", "feature"] = .ok (.vbool true) :=
  fun _ => ⟨rfl, rfl, rfl, rfl⟩

-- ## Claims C10: TOML key promotion

theorem mem_of_contains {l : List String} {a : String} (h : l.contains a = true) : a ∈ l := by
  induction l with
  | nil => simp [List.contains] at h
  | cons b rest ih =>
    simp only [List.contains_cons, Bool.or_eq_true] at h
    rcases h with h | h
    · rw [beq_iff_eq] at h
      simp [h]
    · simp [ih h]

theorem not_mem_of_contains_false {l : List String} {a : String}
    (h : l.contains a = false) : a ∉ l := by
  intro hm
  induction l with
  | nil => simp at hm
  | cons b rest ih =>
    simp only [List.contains_cons, Bool.or_eq_false_iff] at h
    rcases List.mem_cons.mp hm with h2 | h2
    · rw [h2] at h
      simp at h
    · exact ih h.2 h2

theorem alGet_alDel_self (es : Entries) (k : String) : alGet (alDel es k) k = none := by
  induction es using Entries.spine with
  | h1 => rfl
  | h2 k2 v2 rest ih =>
    by_cases h : k2 = k
    · simp only [alDel, if_pos h]
      exact ih
    · simp only [alDel, if_neg h, alGet, if_neg h]
      exact ih

theorem alGet_alDel_ne (es : Entries) (k k2 : String) (h : k ≠ k2) :
    alGet (alDel es k) k2 = alGet es k2 := by
  induction es using Entries.spine with
  | h1 => rfl
  | h2 k3 v3 rest ih =>
    by_cases h3 : k3 = k
    · simp only [alDel, if_pos h3, alGet]
      rw [if_neg (show ¬ (k3 = k2) from by rw [h3]; exact h)]
      exact ih
    · simp only [alDel, if_neg h3, alGet]
      by_cases h4 : k3 = k2
      · rw [if_pos h4, if_pos h4]
      · rw [if_neg h4, if_neg h4]
        exact ih

theorem contains_of_alGet_isSome (es : Entries) (k : String)
    (h : (alGet es k).isSome = true) : (alKeys es).contains k = true := by
  induction es using Entries.spine with
  | h1 => simp [alGet] at h
  | h2 k2 v2 rest ih =>
    simp only [alKeys, List.contains_cons, Bool.or_eq_true]
    by_cases h2 : k2 = k
    · left
      rw [beq_iff_eq]
      exact h2.symm
    · simp only [alGet, if_neg h2] at h
      right
      exact ih h

theorem not_mem_alKeys_of_alGet_none (es : Entries) (k : String)
    (h : alGet es k = none) : k ∉ alKeys es := by
  induction es using Entries.spine with
  | h1 => simp [alKeys]
  | h2 k2 v2 rest ih =>
    simp only [alGet] at h
    by_cases h2 : k2 = k
    · rw [if_pos h2] at h
      exact absurd h (by simp)
    · rw [if_neg h2] at h
      simp only [alKeys, List.mem_cons]
      rintro (h3 | h3)
      · exact h2 h3.symm
      · exact ih h h3

theorem mem_entryPairs_key (es : Entries) (pr : String × Value)
    (h : pr ∈ entryPairs es) : pr.1 ∈ alKeys es := by
  induction es using Entries.spine with
  | h1 => simp [entryPairs] at h
  | h2 k2 v2 rest ih =>
    simp only [entryPairs, List.mem_cons] at h
    rcases h with h | h
    · simp [alKeys, h]
    · simp [alKeys, ih h]

theorem alGet_of_mem_entryPairs (es : Entries) (k : String) (v : Value)
    (hnd : ndKeys es = true) (h : (k, v) ∈ entryPairs es) : alGet es k = some v := by
  induction es using Entries.spine with
  | h1 => simp [entryPairs] at h
  | h2 k2 v2 rest ih =>
    simp only [ndKeys, Bool.and_eq_true] at hnd
    simp only [entryPairs, List.mem_cons] at h
    rcases h with h | h
    · cases h
      simp [alGet]
    · have hne : k2 ≠ k := by
        intro hEq
        subst hEq
        have hm := mem_entryPairs_key rest (k2, v) h
        have hc := hnd.1
        rw [Bool.not_eq_true'] at hc
        exact not_mem_of_contains_false hc hm
      simp only [alGet, if_neg hne]
      exact ih hnd.2 h

theorem entryPairs_split (fc : Entries) (sk : String) (w : Value)
    (hnd : ndKeys fc = true) (h : alGet fc sk = some w) :
    ∃ pre post, entryPairs fc = pre ++ (sk, w) :: post ∧
      (∀ pr ∈ pre, pr.1 ≠ sk) ∧ (∀ pr ∈ post, pr.1 ≠ sk) := by
  induction fc using Entries.spine with
  | h1 => simp [alGet] at h
  | h2 k2 v2 rest ih =>
    simp only [ndKeys, Bool.and_eq_true] at hnd
    by_cases h2 : k2 = sk
    · subst h2
      simp only [alGet, if_pos] at h
      rw [Option.some_inj] at h
      subst h
      refine ⟨[], entryPairs rest, by simp [entryPairs], by simp, ?_⟩
      intro pr hpr hEq
      have hm := mem_entryPairs_key rest pr hpr
      rw [hEq] at hm
      have hc := hnd.1
      rw [Bool.not_eq_true'] at hc
      exact not_mem_of_contains_false hc hm
    · simp only [alGet, if_neg h2] at h
      rcases ih hnd.2 h with ⟨pre, post, heq, hpre, hpost⟩
      refine ⟨(k2, v2) :: pre, post, by simp [entryPairs, heq], ?_, hpost⟩
      intro pr hpr
      rcases List.mem_cons.mp hpr with h3 | h3
      · rw [h3]
        exact h2
      · exact hpre pr h3

theorem promoteKeys_neutral (roots : List String) :
    ∀ (iter : Entries) (st : Entries × List String × Entries),
      (∀ k2 ∈ alKeys iter, roots.contains k2 = false) →
      promoteKeys roots st iter = st := by
  intro iter
  induction iter using Entries.spine with
  | h1 => intro st _; rfl
  | h2 k2 v2 rest ih =>
    intro st h
    have hk2 : roots.contains k2 = false := h k2 (by simp [alKeys])
    rcases st with ⟨fc, prom, sec⟩
    simp only [promoteKeys, hk2, Bool.false_eq_true, if_false]
    exact ih _ (fun k3 hk3 => h k3 (by simp [alKeys, hk3]))

/-- Processing one neutral snapshot pair (key differing from `k` and `sk`,
any dict value holding no defaults-root keys) leaves the lookups at `k`
and `sk` and the promoted list unchanged. -/
theorem promoteStep_neutral (roots : List String) (k sk : String)
    (fc : Entries) (prom : List String) (pr : String × Value)
    (hk : pr.1 ≠ k) (hsk : pr.1 ≠ sk)
    (hdict : ∀ c2 es2, pr.2 = .vdict c2 es2 → ∀ k2 ∈ alKeys es2, roots.contains k2 = false) :
    alGet (promoteStep roots (fc, prom) pr).1 k = alGet fc k
    ∧ alGet (promoteStep roots (fc, prom) pr).1 sk = alGet fc sk
    ∧ (promoteStep roots (fc, prom) pr).2 = prom := by
  rcases pr with ⟨k2, v2⟩
  simp only at hk hsk
  cases v2 with
  | vdict c2 es2 =>
    cases es2 with
    | nil =>
      exact ⟨alGet_alDel_ne fc k2 k hk, alGet_alDel_ne fc k2 sk hsk, rfl⟩
    | cons k3 v3 rest =>
      have hn := promoteKeys_neutral roots (.cons k3 v3 rest) (fc, prom, .cons k3 v3 rest)
        (hdict c2 _ rfl)
      simp only [promoteStep]
      rw [hn]
      exact ⟨alGet_alSet_ne fc k2 k _ hk, alGet_alSet_ne fc k2 sk _ hsk, rfl⟩
  | vstr s => exact ⟨rfl, rfl, rfl⟩
  | vint n => exact ⟨rfl, rfl, rfl⟩
  | vfloat s => exact ⟨rfl, rfl, rfl⟩
  | vbool b2 => exact ⟨rfl, rfl, rfl⟩
  | vnull => exact ⟨rfl, rfl, rfl⟩
  | vlist xs => exact ⟨rfl, rfl, rfl⟩

theorem promoteFold_neutral (roots : List String) (k sk : String) :
    ∀ (pairs : List (String × Value)) (fc : Entries) (prom : List String),
      (∀ pr ∈ pairs, pr.1 ≠ k ∧ pr.1 ≠ sk ∧
        ∀ c2 es2, pr.2 = Value.vdict c2 es2 → ∀ k2 ∈ alKeys es2, roots.contains k2 = false) →
      alGet (pairs.foldl (promoteStep roots) (fc, prom)).1 k = alGet fc k
      ∧ alGet (pairs.foldl (promoteStep roots) (fc, prom)).1 sk = alGet fc sk
      ∧ (pairs.foldl (promoteStep roots) (fc, prom)).2 = prom := by
  intro pairs
  induction pairs with
  | nil => intro fc prom _; exact ⟨rfl, rfl, rfl⟩
  | cons pr rest ih =>
    intro fc prom h
    have h1 := h pr (by simp)
    have h2 := promoteStep_neutral roots k sk fc prom pr h1.1 h1.2.1 h1.2.2
    simp only [List.foldl_cons]
    have hstep : promoteStep roots (fc, prom) pr
        = ((promoteStep roots (fc, prom) pr).1, (promoteStep roots (fc, prom) pr).2) := rfl
    rw [hstep, h2.2.2]
    rcases ih (promoteStep roots (fc, prom) pr).1 prom (fun q hq => h q (by simp [hq]))
      with ⟨ha, hb, hc⟩
    exact ⟨ha.trans h2.1, hb.trans h2.2.1, hc⟩

/-- Inside the one section that holds the promotable key `k` (every other
section key lies outside the defaults roots), the key loop promotes
exactly `k`: it lands at the file root and is popped from the section. -/
theorem promoteKeys_single (roots : List String) (k : String) (v : Value) :
    ∀ (iter : Entries) (fcA : Entries) (prom : List String) (sec : Entries),
      ndKeys iter = true →
      (∀ k2 ∈ alKeys iter, k2 ≠ k → roots.contains k2 = false) →
      alGet iter k = some v →
      roots.contains k = true →
      alGet fcA k = none →
      promoteKeys roots (fcA, prom, sec) iter = (alSet fcA k v, k :: prom, alDel sec k) := by
  intro iter
  induction iter using Entries.spine with
  | h1 => intro fcA prom sec _ _ hv _ _; simp [alGet] at hv
  | h2 k2 v2 rest ih =>
    intro fcA prom sec hnd hok hv hroot hnone
    simp only [ndKeys, Bool.and_eq_true] at hnd
    by_cases h2 : k2 = k
    · subst h2
      simp only [alGet, if_pos] at hv
      rw [Option.some_inj] at hv
      subst hv
      simp only [promoteKeys, hroot, hnone, Option.isNone_none, Bool.true_or, if_true]
      apply promoteKeys_neutral
      intro k3 hk3
      have hne : k3 ≠ k2 := by
        intro hEq
        have hc := hnd.1
        rw [Bool.not_eq_true'] at hc
        exact not_mem_of_contains_false hc (hEq ▸ hk3)
      exact hok k3 (by simp [alKeys, hk3]) hne
    · simp only [alGet, if_neg h2] at hv
      have hk2 : roots.contains k2 = false := hok k2 (by simp [alKeys]) h2
      simp only [promoteKeys, hk2, Bool.false_eq_true, if_false]
      exact ih fcA prom sec hnd.2 (fun k3 h3 hne => hok k3 (by simp [alKeys, h3]) hne) hv
        hroot hnone

/-- The promotion pass moves the single promotable key of one section to
the file root: in a file whose only section holding a defaults-root key
is `sk` with key `k` (not already at the root), `k` ends at the root with
its section value, is popped from the section, and the section is deleted
when promotion left it empty. -/
theorem promote_single (d fc : Entries) (sk : String) (c : Bool) (es : Entries)
    (k : String) (v : Value)
    (hndfc : ndKeys fc = true)
    (hsec : alGet fc sk = some (.vdict c es))
    (hndes : ndKeys es = true)
    (hkv : alGet es k = some v)
    (hroot : (alGet d k).isSome = true)
    (hnotroot : alGet fc k = none)
    (honly : ∀ k2 ∈ alKeys es, k2 ≠ k → (alKeys d).contains k2 = false)
    (hothers : ∀ sk2 c2 es2, sk2 ≠ sk → alGet fc sk2 = some (.vdict c2 es2) →
       ∀ k2 ∈ alKeys es2, (alKeys d).contains k2 = false) :
    alGet (promoteToml d fc) k = some v
    ∧ alGet (promoteToml d fc) sk
      = (if (alDel es k).isNil then none else some (.vdict c (alDel es k))) := by
  have hkne : k ≠ sk := by
    intro hEq
    apply not_mem_alKeys_of_alGet_none fc k hnotroot
    rw [hEq]
    exact mem_of_contains (contains_of_alGet_isSome fc sk (by rw [hsec]; rfl))
  have hguard : promoteToml d fc = ((entryPairs fc).foldl (promoteStep (alKeys d)) (fc, [])).1 := by
    cases d with
    | nil => simp [alGet] at hroot
    | cons dk dv drest =>
      cases fc with
      | nil => simp [alGet] at hsec
      | cons fk fv frest => rfl
  obtain ⟨pre, post, hsplit, hpreKeys, hpostKeys⟩ := entryPairs_split fc sk _ hndfc hsec
  have hsidecond : ∀ (l : List (String × Value)) (hl : ∀ pr ∈ l, pr ∈ entryPairs fc)
      (hlk : ∀ pr ∈ l, pr.1 ≠ sk),
      ∀ pr ∈ l, pr.1 ≠ k ∧ pr.1 ≠ sk ∧
        ∀ c2 es2, pr.2 = Value.vdict c2 es2 → ∀ k2 ∈ alKeys es2, (alKeys d).contains k2 = false := by
    intro l hl hlk pr hpr
    have hmem := hl pr hpr
    have hk1 : pr.1 ≠ k := by
      intro hEq
      exact not_mem_alKeys_of_alGet_none fc k hnotroot (hEq ▸ mem_entryPairs_key fc pr hmem)
    refine ⟨hk1, hlk pr hpr, ?_⟩
    intro c2 es2 hv2 k2 hk2
    have hgot : alGet fc pr.1 = some pr.2 := alGet_of_mem_entryPairs fc pr.1 pr.2 hndfc hmem
    exact hothers pr.1 c2 es2 (hlk pr hpr) (by rw [← hv2]; exact hgot) k2 hk2
  have hprecond := hsidecond pre
    (fun pr hpr => by rw [hsplit]; exact List.mem_append.mpr (Or.inl hpr)) hpreKeys
  have hpostcond := hsidecond post
    (fun pr hpr => by rw [hsplit]; exact List.mem_append.mpr (Or.inr (by simp [hpr]))) hpostKeys
  have hpre2 := promoteFold_neutral (alKeys d) k sk pre fc [] hprecond
  rw [hguard, hsplit, List.foldl_append, List.foldl_cons]
  obtain ⟨A1, A2, hAeq⟩ : ∃ A1 A2, pre.foldl (promoteStep (alKeys d)) (fc, []) = (A1, A2) :=
    ⟨_, _, rfl⟩
  rw [hAeq] at hpre2 ⊢
  simp only at hpre2
  obtain ⟨hk1, hsk1, hA2⟩ := hpre2
  subst hA2
  have hAk : alGet A1 k = none := by
    rw [hk1]
    exact hnotroot
  have hcontains : (alKeys d).contains k = true := contains_of_alGet_isSome d k hroot
  have hsk2 := promoteKeys_single (alKeys d) k v es A1 [] es hndes honly hkv hcontains hAk
  cases halDel : alDel es k with
  | nil =>
    have hstep : promoteStep (alKeys d) (A1, []) (sk, .vdict c es)
        = (alDel (alSet A1 k v) sk, [k]) := by
      simp only [promoteStep]
      rw [hsk2, halDel]
      rfl
    rw [hstep]
    have hpost2 := promoteFold_neutral (alKeys d) k sk post
      (alDel (alSet A1 k v) sk) [k] hpostcond
    constructor
    · rw [hpost2.1, alGet_alDel_ne _ sk k (fun h => hkne h.symm), alGet_alSet_self]
    · rw [hpost2.2.1, alGet_alDel_self]
      rfl
  | cons dk dv drest =>
    have hstep : promoteStep (alKeys d) (A1, []) (sk, .vdict c es)
        = (alSet (alSet A1 k v) sk (.vdict c (.cons dk dv drest)), [k]) := by
      simp only [promoteStep]
      rw [hsk2, halDel]
      rfl
    rw [hstep]
    have hpost2 := promoteFold_neutral (alKeys d) k sk post
      (alSet (alSet A1 k v) sk (.vdict c (.cons dk dv drest))) [k] hpostcond
    constructor
    · rw [hpost2.1, alGet_alSet_ne _ sk k _ (fun h => hkne h.symm), alGet_alSet_self]
    · rw [hpost2.2.1, alGet_alSet_self]
      rfl

/-- C10: loading a TOML file with a non-empty defaults mapping runs the
promotion pass: a key inside a top-level section that matches a
root-level defaults key and is not already at the file root (nor shadowed)
is popped from the section and installed at the root, a section emptied by
promotion is deleted, a key already at the root is skipped, a key promoted
earlier is re-promoted (overwriting), with empty defaults the parsed tree
passes through unchanged — and the file layer entering the merge can
therefore differ structurally from the parsed file content. -/
theorem claim10_toml_promotion :
    (∀ (d fc : Entries) (sk : String) (c : Bool) (es : Entries) (k : String) (v : Value),
       ndKeys fc = true → alGet fc sk = some (.vdict c es) → ndKeys es = true →
       alGet es k = some v → (alGet d k).isSome = true → alGet fc k = none →
       (∀ k2 ∈ alKeys es, k2 ≠ k → (alKeys d).contains k2 = false) →
       (∀ sk2 c2 es2, sk2 ≠ sk → alGet fc sk2 = some (.vdict c2 es2) →
          ∀ k2 ∈ alKeys es2, (alKeys d).contains k2 = false) →
       alGet (promoteToml d fc) k = some v
       ∧ alGet (promoteToml d fc) sk
         = (if (alDel es k).isNil then none else some (.vdict c (alDel es k))))
    ∧ (∀ fc : Entries, promoteToml .nil fc = fc)
    ∧ promoteToml (E [("list_items", .vint 0)])
        (E [("sec1", .vdict false (E [("list_items", .vlist (V [.vint 1])), ("key", .vstr "v")]))])
      ≠ E [("sec1", .vdict false (E [("list_items", .vlist (V [.vint 1])), ("key", .vstr "v")]))]
    ∧ promoteToml (E [("list_items", .vint 0)])
        (E [("sec1", .vdict false (E [("list_items", .vlist (V [.vint 1])), ("key", .vstr "v")]))])
      = E [("sec1", .vdict false (E [("key", .vstr "v")])), ("list_items", .vlist (V [.vint 1]))]
    ∧ promoteToml (E [("a", .vint 0)]) (E [("s", .vdict false (E [("a", .vint 1)]))])
      = E [("a", .vint 1)]
    ∧ promoteToml (E [("a", .vint 0)])
        (E [("a", .vint 9), ("s", .vdict false (E [("a", .vint 1)]))])
      = E [("a", .vint 9), ("s", .vdict false (E [("a", .vint 1)]))]
    ∧ promoteToml (E [("a", .vint 0)])
        (E [("s1", .vdict false (E [("a", .vint 1)])), ("s2", .vdict false (E [("a", .vint 2)]))])
      = E [("a", .vint 2)] := by
  refine ⟨promote_single, ?_, ?_, rfl, rfl, rfl, rfl⟩
  · intro fc
    cases fc <;> rfl
  · intro h
    have h2 := congrArg (fun es => alGet es "list_items") h
    simp only at h2
    rw [show alGet (promoteToml (E [("list_items", .vint 0)])
        (E [("sec1", .vdict false
          (E [("list_items", .vlist (V [.vint 1])), ("key", .vstr "v")]))])) "list_items"
      = some (.vlist (V [.vint 1])) from rfl] at h2
    rw [show alGet (E [("sec1", .vdict false
        (E [("list_items", .vlist (V [.vint 1])), ("key", .vstr "v")]))]) "list_items"
      = none from rfl] at h2
    exact Option.noConfusion h2

/-- Witness for C10's general promotion statement on a concrete file. -/
theorem claim10_toml_promotion_witness :
    alGet (promoteToml (E [("li", .vint 0)])
        (E [("s", .vdict false (E [("li", .vint 1), ("key", .vstr "v")]))])) "li"
      = some (.vint 1)
    ∧ alGet (promoteToml (E [("li", .vint 0)])
        (E [("s", .vdict false (E [("li", .vint 1), ("key", .vstr "v")]))])) "s"
      = (if (alDel (E [("li", .vint 1), ("key", .vstr "v")]) "li").isNil then none
         else some (.vdict false (alDel (E [("li", .vint 1), ("key", .vstr "v")]) "li"))) :=
  claim10_toml_promotion.1 (E [("li", .vint 0)])
    (E [("s", .vdict false (E [("li", .vint 1), ("key", .vstr "v")]))])
    "s" false (E [("li", .vint 1), ("key", .vstr "v")]) "li" (.vint 1)
    (by rfl) (by rfl) (by rfl) (by rfl) (by rfl) (by rfl)
    (by decide)
    (by
      intro sk2 c2 es2 hne hget
      simp only [E, alGet] at hget
      rw [if_neg (fun h => hne h.symm)] at hget
      exact Option.noConfusion hget)

end Confy
